import Mathlib

/-!
# Verification of the grimoire task-orchestration engine

This file gives a shallow embedding, in Lean 4, of the core of the grimoire
task-orchestration engine (task-graph builder, router, execution engine and
combat-strategy compiler) and proves properties of that embedding.

Modelling conventions:

* Machine numbers are modelled as `Nat`/`Int` (no overflow is relevant here).
* Fallible code (`throw` of a string) is modelled with `Except String`.
* JS `Map` objects and plain attempt-count objects are modelled as
  insertion-ordered association lists with overwrite-in-place `set`.
* Optional fields (`after`, `ready`, `limit`, ...) are modelled as `Option`s;
  an absent field is `none`.  A predicate-valued field such as `completed`
  or `ready` is modelled by the boolean value the predicate currently
  returns (the engine always re-evaluates it, never caches it).
* In-place mutation of the quest/task objects by `getTasks` is modelled by
  explicit state passing: the embedding returns the updated quest list next
  to the result list.
* JS object aliasing (needed for `CombatStrategy.clone`) is modelled with an
  explicit store of arrays and maps addressed by natural-number references.
* Router priorities are JS numbers whose only values are `1000`, routing
  indices `i`, and `i - 0.01·k`; they are stored here exactly, scaled by
  `100` as integers (`1000 ↦ 100000`, `i ↦ 100·i`, `- 0.01 ↦ - 1`), an
  order-isomorphic encoding that keeps all comparisons exact.
-/

namespace Grimoire

/-! ## Data model -/

/-- An adventuring location (external world object); only the fields the
engine reads are modelled. -/
structure Location where
  locId : Nat
  turnsSpent : Nat
deriving DecidableEq, Repr

/-- The `do` attribute of a task: either a location or a callback. -/
inductive TaskDo where
  | loc (l : Location)
  | callback
deriving DecidableEq, Repr

/-- The `limit` attribute of a task (`tries`, `soft`, `turns`, `message`). -/
structure Limit where
  tries : Option Nat
  soft : Option Nat
  turns : Option Nat
  message : Option String
deriving DecidableEq, Repr

/-- A task.  `after` is the (optional) dependency list, `ready` the current
value of the optional readiness predicate, `completed` the current value of
the completion predicate, `taskDo` the `do` attribute. -/
structure Task where
  name : String
  after : Option (List String)
  ready : Option Bool
  completed : Bool
  limit : Option Limit
  taskDo : TaskDo
deriving DecidableEq, Repr

/-- A quest: a name and an ordered list of tasks. -/
structure Quest where
  name : String
  tasks : List Task
deriving DecidableEq, Repr

/-! ## Task graph builder (`getTasks`, source `task.ts`)

JS source:
```
export function getTasks(quests, implicitAfter = false) {
    const result = [];
    for (const quest of quests) {
        for (const task of quest.tasks) {
            task.name = `$\x7bquest.name\x7d/$\x7btask.name\x7d`;
            task.after = task.after?.map((after) =>
              after.includes("/") ? after : `$\x7bquest.name\x7d/$\x7bafter\x7d`);
            if (implicitAfter && task.after === undefined && result.length > 0)
                task.after = [result[result.length - 1].name];
            result.push(task);
        }
    }
    const names = new Set();
    for (const task of result) names.add(task.name);
    for (const task of result)
        for (const after of task.after ?? [])
            if (!names.has(after))
                throw `Unknown task dependency $\x7bafter\x7d of $\x7btask.name\x7d`;
    return result;
}
```
-/

/-- `after.includes("/")`: since the separator is a single character this is
membership of `'/'` among the characters. -/
def hasSlash (s : String) : Bool := s.data.contains '/'

/-- Rewrite one `after` entry: prefix the quest name unless the entry already
contains the namespace separator. -/
def renameAfterEntry (questName : String) (a : String) : String :=
  if hasSlash a then a else questName ++ "/" ++ a

/-- One iteration of the inner loop of `getTasks`, acting on `task`:
(a) namespace the name; (b) namespace each `after` entry; (c) under
`implicitAfter`, a task with no declared `after` that is not the first task
appended depends on the previously appended task's final name (`prev`). -/
def stepTask (questName : String) (implicitAfter : Bool) (prev : Option String)
    (task : Task) : Task :=
  let name := questName ++ "/" ++ task.name
  let after := task.after.map (fun l => l.map (renameAfterEntry questName))
  let after :=
    match after, prev with
    | none, some p => if implicitAfter then some [p] else none
    | a, _ => a
  { task with name := name, after := after }

/-- The body of the inner loop of `getTasks`: mutate the task
(`stepTask`, reading the previously pushed task's name from the growing
`result`, second component) and push it both onto the quest's task list
(first component, the in-place mutation) and onto `result`. -/
def innerStep (questName : String) (implicitAfter : Bool)
    (qacc : List Task × List Task) (task : Task) : List Task × List Task :=
  let t := stepTask questName implicitAfter (qacc.2.getLast?.map Task.name) task
  (qacc.1 ++ [t], qacc.2 ++ [t])

/-- The body of the outer loop of `getTasks`: run the inner loop over one
quest's tasks, collecting the quest's updated task list. -/
def outerStep (implicitAfter : Bool) (acc : List Quest × List Task)
    (quest : Quest) : List Quest × List Task :=
  let r := quest.tasks.foldl (innerStep quest.name implicitAfter) ([], acc.2)
  (acc.1 ++ [⟨quest.name, r.1⟩], r.2)

/-- The two nested loops of `getTasks`.  The source mutates each task object
in place and pushes it onto `result`; here the updated quest list is returned
in the first component and `result` in the second, so that the aliasing
between `quest.tasks` and `result` becomes a provable equality. -/
def getTasksRun (implicitAfter : Bool) (quests : List Quest) :
    List Quest × List Task :=
  quests.foldl (outerStep implicitAfter) ([], [])

/-- The unknown-dependency error text. -/
def unknownDepMessage (after taskName : String) : String :=
  "Unknown task dependency " ++ after ++ " of " ++ taskName

/-- The validation pass of `getTasks`: the first `after` entry (in task
order, then entry order) that is not a known task name, with its task. -/
def findUnknownDep (names : List String) : List Task → Option (String × String)
  | [] => none
  | t :: rest =>
    match (t.after.getD []).find? (fun a => !names.contains a) with
    | some a => some (a, t.name)
    | none => findUnknownDep names rest

/-- `getTasks`: flatten, then validate every dependency name against the
set of all namespaced task names. -/
def getTasks (quests : List Quest) (implicitAfter : Bool) :
    Except String (List Task) :=
  let result := (getTasksRun implicitAfter quests).2
  let names := result.map Task.name
  match findUnknownDep names result with
  | some p => .error (unknownDepMessage p.1 p.2)
  | none => .ok result

/-! ### A linear recursion equivalent to the nested folds -/

/-- The flattened (quest name, task) pairs, in declaration order. -/
def questPairs (quests : List Quest) : List (String × Task) :=
  quests.flatMap (fun q => q.tasks.map (fun t => (q.name, t)))

/-- Linear form of the flattening loop: `prev` is the name of the previously
emitted task, if any. -/
def flattenPairs (implicitAfter : Bool) :
    Option String → List (String × Task) → List Task
  | _, [] => []
  | prev, p :: rest =>
    stepTask p.1 implicitAfter prev p.2 ::
      flattenPairs implicitAfter (some (stepTask p.1 implicitAfter prev p.2).name) rest

/-- The name of the last task of `l`, defaulting to `prev`. -/
def lastNameOr (prev : Option String) (l : List Task) : Option String :=
  match l.getLast? with
  | some t => some t.name
  | none => prev

theorem lastNameOr_append (prev : Option String) (l l' : List Task) :
    lastNameOr prev (l ++ l') = lastNameOr (lastNameOr prev l) l' := by
  cases l' with
  | nil => simp [lastNameOr]
  | cons x xs =>
    unfold lastNameOr
    rw [List.getLast?_append_cons]
    cases h : (x :: xs).getLast? with
    | none => simp at h
    | some t => rfl

theorem lastNameOr_cons (prev : Option String) (t : Task) (l : List Task) :
    lastNameOr prev (t :: l) = lastNameOr (some t.name) l := by
  have h := lastNameOr_append prev [t] l
  simpa [lastNameOr] using h

theorem flattenPairs_append (ia : Bool) (prev : Option String)
    (xs ys : List (String × Task)) :
    flattenPairs ia prev (xs ++ ys) =
      flattenPairs ia prev xs ++
        flattenPairs ia (lastNameOr prev (flattenPairs ia prev xs)) ys := by
  induction xs generalizing prev with
  | nil => simp [flattenPairs, lastNameOr]
  | cons p rest ih =>
    simp only [List.cons_append, flattenPairs, lastNameOr_cons, List.append_eq]
    rw [ih]

theorem getLast_map_name_append (res l : List Task) :
    ((res ++ l).getLast?.map Task.name) = lastNameOr (res.getLast?.map Task.name) l := by
  cases l with
  | nil => simp [lastNameOr]
  | cons x xs =>
    rw [List.getLast?_append_cons]
    unfold lastNameOr
    cases h : (x :: xs).getLast? with
    | none => simp at h
    | some t => rfl

/-- The inner loop over one quest's tasks, from arbitrary accumulators. -/
theorem innerStep_foldl (ia : Bool) (qn : String) (tasks : List Task)
    (acc1 res : List Task) :
    tasks.foldl (innerStep qn ia) (acc1, res) =
      (acc1 ++ flattenPairs ia (res.getLast?.map Task.name)
          (tasks.map (fun t => (qn, t))),
       res ++ flattenPairs ia (res.getLast?.map Task.name)
          (tasks.map (fun t => (qn, t)))) := by
  induction tasks generalizing acc1 res with
  | nil => simp [flattenPairs]
  | cons t rest ih =>
    simp only [List.foldl_cons, List.map_cons, flattenPairs, innerStep]
    rw [ih]
    simp [List.getLast?_concat]

/-- The updated quest list produced by in-place mutation: each quest keeps
its name, its tasks replaced by their namespaced forms. -/
def updatedQuests (ia : Bool) : Option String → List Quest → List Quest
  | _, [] => []
  | prev, q :: rest =>
    ⟨q.name, flattenPairs ia prev (q.tasks.map (fun t => (q.name, t)))⟩ ::
      updatedQuests ia
        (lastNameOr prev (flattenPairs ia prev (q.tasks.map (fun t => (q.name, t)))))
        rest

/-- The outer loop of `getTasks`, from arbitrary accumulators. -/
theorem outerStep_foldl (ia : Bool) (quests : List Quest)
    (accQ : List Quest) (res : List Task) :
    quests.foldl (outerStep ia) (accQ, res) =
      (accQ ++ updatedQuests ia (res.getLast?.map Task.name) quests,
       res ++ flattenPairs ia (res.getLast?.map Task.name) (questPairs quests)) := by
  induction quests generalizing accQ res with
  | nil => simp [updatedQuests, questPairs, flattenPairs]
  | cons q rest ih =>
    simp only [List.foldl_cons, outerStep, innerStep_foldl, List.nil_append]
    rw [ih]
    simp only [updatedQuests, questPairs, List.flatMap_cons, flattenPairs_append,
      getLast_map_name_append]
    simp [List.append_assoc]

theorem getTasksRun_snd (ia : Bool) (quests : List Quest) :
    (getTasksRun ia quests).2 = flattenPairs ia none (questPairs quests) := by
  unfold getTasksRun
  rw [show (([], []) : List Quest × List Task) = (([] : List Quest), ([] : List Task)) from rfl,
    outerStep_foldl]
  rfl

theorem getTasksRun_fst (ia : Bool) (quests : List Quest) :
    (getTasksRun ia quests).1 = updatedQuests ia none quests := by
  unfold getTasksRun
  rw [show (([], []) : List Quest × List Task) = (([] : List Quest), ([] : List Task)) from rfl,
    outerStep_foldl]
  rfl

theorem updatedQuests_flatMap (ia : Bool) (prev : Option String)
    (quests : List Quest) :
    (updatedQuests ia prev quests).flatMap Quest.tasks =
      flattenPairs ia prev (questPairs quests) := by
  induction quests generalizing prev with
  | nil => simp [updatedQuests, questPairs, flattenPairs]
  | cons q rest ih =>
    simp only [updatedQuests, List.flatMap_cons, questPairs, flattenPairs_append, ih]

/-! ### Pointwise facts about `stepTask` and `flattenPairs` -/

theorem stepTask_name (qn : String) (ia : Bool) (prev : Option String) (t : Task) :
    (stepTask qn ia prev t).name = qn ++ "/" ++ t.name := rfl

theorem stepTask_ready (qn : String) (ia : Bool) (prev : Option String) (t : Task) :
    (stepTask qn ia prev t).ready = t.ready := rfl

theorem stepTask_completed (qn : String) (ia : Bool) (prev : Option String) (t : Task) :
    (stepTask qn ia prev t).completed = t.completed := rfl

theorem stepTask_limit (qn : String) (ia : Bool) (prev : Option String) (t : Task) :
    (stepTask qn ia prev t).limit = t.limit := rfl

theorem stepTask_taskDo (qn : String) (ia : Bool) (prev : Option String) (t : Task) :
    (stepTask qn ia prev t).taskDo = t.taskDo := rfl

theorem stepTask_after_some (qn : String) (ia : Bool) (prev : Option String)
    (t : Task) (l : List String) (h : t.after = some l) :
    (stepTask qn ia prev t).after = some (l.map (renameAfterEntry qn)) := by
  cases prev <;> simp [stepTask, h]

theorem stepTask_after_none_implicit (qn : String) (p : String) (t : Task)
    (h : t.after = none) : (stepTask qn true (some p) t).after = some [p] := by
  simp [stepTask, h]

theorem stepTask_after_none_first (qn : String) (ia : Bool) (t : Task)
    (h : t.after = none) : (stepTask qn ia none t).after = none := by
  simp [stepTask, h]

theorem stepTask_false (qn : String) (prev : Option String) (t : Task) :
    stepTask qn false prev t = stepTask qn false none t := by
  cases h : t.after <;> cases prev <;> simp [stepTask, h]

theorem stepTask_none_prev (qn : String) (t : Task) :
    stepTask qn false none t =
      { t with name := qn ++ "/" ++ t.name,
               after := t.after.map (fun l => l.map (renameAfterEntry qn)) } := by
  cases h : t.after <;> simp [stepTask, h]

theorem flattenPairs_false (prev : Option String) (pairs : List (String × Task)) :
    flattenPairs false prev pairs =
      pairs.map (fun p => stepTask p.1 false none p.2) := by
  induction pairs generalizing prev with
  | nil => rfl
  | cons p rest ih =>
    rw [flattenPairs, stepTask_false, ih]
    rfl

/-- Element `i` of the flattened list is the `i`-th input pair, stepped with
a `prev` that is `none` at position `0` and the name of the output at
position `i - 1` otherwise. -/
theorem flattenPairs_getElem (ia : Bool) :
    ∀ (pairs : List (String × Task)) (prev : Option String) (i : Nat)
      (qn : String) (t : Task), pairs[i]? = some (qn, t) →
      ∃ pv, (flattenPairs ia prev pairs)[i]? = some (stepTask qn ia pv t) ∧
        (i = 0 → pv = prev) ∧
        (∀ j, i = j + 1 →
          ∃ u, (flattenPairs ia prev pairs)[j]? = some u ∧ pv = some u.name) := by
  intro pairs
  induction pairs with
  | nil => intro prev i qn t h; simp at h
  | cons p rest ih =>
    intro prev i qn t h
    cases i with
    | zero =>
      simp only [List.getElem?_cons_zero, Option.some.injEq] at h
      refine ⟨prev, ?_, fun _ => rfl, fun j hj => by omega⟩
      simp [flattenPairs, h]
    | succ i =>
      simp only [List.getElem?_cons_succ] at h
      obtain ⟨pv, h1, h2, h3⟩ :=
        ih (some (stepTask p.1 ia prev p.2).name) i qn t h
      refine ⟨pv, ?_, fun hi => by omega, ?_⟩
      · simpa [flattenPairs] using h1
      · intro j hj
        cases j with
        | zero =>
          refine ⟨stepTask p.1 ia prev p.2, by simp [flattenPairs], ?_⟩
          exact h2 (by omega)
        | succ j =>
          obtain ⟨u, hu, hpv⟩ := h3 j (by omega)
          exact ⟨u, by simpa [flattenPairs] using hu, hpv⟩

/-! ### Validation-pass facts -/

theorem getTasks_ok_eq (quests : List Quest) (ia : Bool) (L : List Task)
    (h : getTasks quests ia = .ok L) : L = (getTasksRun ia quests).2 := by
  unfold getTasks at h
  cases hf : findUnknownDep ((getTasksRun ia quests).2.map Task.name)
      (getTasksRun ia quests).2 with
  | some p => simp [hf] at h
  | none =>
    simp only [hf] at h
    exact (Except.ok.injEq _ _ ▸ h).symm

theorem findUnknownDep_some (names : List String) :
    ∀ (l : List Task) (a nm : String), findUnknownDep names l = some (a, nm) →
      ∃ t ∈ l, t.name = nm ∧ a ∈ t.after.getD [] ∧ names.contains a = false := by
  intro l
  induction l with
  | nil => intro a nm h; simp [findUnknownDep] at h
  | cons t rest ih =>
    intro a nm h
    unfold findUnknownDep at h
    cases hf : (t.after.getD []).find? (fun x => !names.contains x) with
    | some b =>
      rw [hf] at h
      simp only [Option.some.injEq, Prod.mk.injEq] at h
      refine ⟨t, by simp, h.2, ?_, ?_⟩
      · exact h.1 ▸ List.mem_of_find?_eq_some hf
      · have := List.find?_some hf
        rw [h.1] at this
        simpa using this
    | none =>
      rw [hf] at h
      obtain ⟨u, hu, h1, h2, h3⟩ := ih a nm h
      exact ⟨u, by simp [hu], h1, h2, h3⟩

theorem findUnknownDep_none (names : List String) :
    ∀ (l : List Task), findUnknownDep names l = none →
      ∀ t ∈ l, ∀ a ∈ t.after.getD [], names.contains a = true := by
  intro l
  induction l with
  | nil => intro _ t ht; simp at ht
  | cons t rest ih =>
    intro h u hu a ha
    unfold findUnknownDep at h
    cases hf : (t.after.getD []).find? (fun x => !names.contains x) with
    | some b => rw [hf] at h; cases h
    | none =>
      rw [hf] at h
      rcases List.mem_cons.mp hu with hut | hur
      · have := List.find?_eq_none.mp hf a (hut ▸ ha)
        simpa using this
      · exact ih h u hur a ha

theorem contains_eq_true_iff (l : List String) (a : String) :
    l.contains a = true ↔ a ∈ l := List.elem_iff

theorem renameAfterEntry_eta (qn : String) :
    renameAfterEntry qn = fun a => if hasSlash a then a else qn ++ "/" ++ a := rfl

theorem getTasks_eq (quests : List Quest) (ia : Bool) :
    getTasks quests ia =
      match findUnknownDep ((getTasksRun ia quests).2.map Task.name)
          (getTasksRun ia quests).2 with
      | some p => .error (unknownDepMessage p.1 p.2)
      | none => .ok (getTasksRun ia quests).2 := rfl

/-! ## Claims about the task graph builder -/

/-- **C4**: for every list of quests, a successful `getTasks` (default
`implicitAfter = false`) returns one entry per input task, in quest order
then in-quest declaration order, the name rewritten to
`questName/taskName` and every `after` entry prefixed by the quest name
unless it already contains the separator, in which case it is unchanged. -/
theorem getTasks_flattens_in_order (quests : List Quest) (L : List Task)
    (h : getTasks quests false = .ok L) :
    L = quests.flatMap (fun q => q.tasks.map (fun t =>
      { t with
        name := q.name ++ "/" ++ t.name,
        after := t.after.map (fun l => l.map (fun a =>
          if hasSlash a then a else q.name ++ "/" ++ a)) })) := by
  rw [getTasks_ok_eq quests false L h, getTasksRun_snd, flattenPairs_false,
    questPairs, List.map_flatMap]
  simp only [List.map_map, Function.comp, stepTask_none_prev, renameAfterEntry_eta]
  rfl

/-- Demonstration input: quests `Q1` (tasks `a`, `b`) and `Q2` (task `c`). -/
def demoTaskA : Task := ⟨"a", none, none, false, none, .callback⟩

def demoTaskB : Task := ⟨"b", none, none, false, none, .callback⟩

def demoTaskC : Task := ⟨"c", none, none, false, none, .callback⟩

def demoQuests : List Quest :=
  [⟨"Q1", [demoTaskA, demoTaskB]⟩, ⟨"Q2", [demoTaskC]⟩]

/-- The flattened result on the demonstration input: exactly the names
`Q1/a`, `Q1/b`, `Q2/c`, in that order. -/
def demoFlat : List Task :=
  [⟨"Q1/a", none, none, false, none, .callback⟩,
   ⟨"Q1/b", none, none, false, none, .callback⟩,
   ⟨"Q2/c", none, none, false, none, .callback⟩]

theorem getTasks_flattens_in_order_witness :
    getTasks demoQuests false = .ok demoFlat ∧
    demoFlat = demoQuests.flatMap (fun q => q.tasks.map (fun t =>
      { t with
        name := q.name ++ "/" ++ t.name,
        after := t.after.map (fun l => l.map (fun a =>
          if hasSlash a then a else q.name ++ "/" ++ a)) })) :=
  ⟨rfl, getTasks_flattens_in_order demoQuests demoFlat rfl⟩

/-- **C7**: `getTasks` raises an error iff some flattened task has an
`after` entry that equals no namespaced task name of the full flattened
list; any raised error identifies the offending dependency and its
dependant task.  Because the names come from the full list, forward
references are accepted. -/
theorem getTasks_unknown_dependency (quests : List Quest) (ia : Bool) :
    ((∃ e, getTasks quests ia = .error e) ↔
      ∃ t ∈ (getTasksRun ia quests).2, ∃ a ∈ t.after.getD [],
        a ∉ ((getTasksRun ia quests).2.map Task.name)) ∧
    ∀ e, getTasks quests ia = .error e →
      ∃ t ∈ (getTasksRun ia quests).2, ∃ a ∈ t.after.getD [],
        a ∉ ((getTasksRun ia quests).2.map Task.name) ∧
        e = unknownDepMessage a t.name := by
  cases hf : findUnknownDep ((getTasksRun ia quests).2.map Task.name)
      (getTasksRun ia quests).2 with
  | some p =>
    have herr : getTasks quests ia = .error (unknownDepMessage p.1 p.2) := by
      rw [getTasks_eq, hf]
    obtain ⟨t, ht, hnm, ha, hc⟩ :=
      findUnknownDep_some _ _ p.1 p.2 (by simpa using hf)
    have hnot : p.1 ∉ ((getTasksRun ia quests).2.map Task.name) := by
      intro hmem
      rw [(contains_eq_true_iff _ _).mpr hmem] at hc
      cases hc
    constructor
    · constructor
      · intro _
        exact ⟨t, ht, p.1, ha, hnot⟩
      · intro _
        exact ⟨unknownDepMessage p.1 p.2, herr⟩
    · intro e he
      rw [herr] at he
      simp only [Except.error.injEq] at he
      exact ⟨t, ht, p.1, ha, hnot, by rw [← he, hnm]⟩
  | none =>
    have hok : getTasks quests ia = .ok (getTasksRun ia quests).2 := by
      rw [getTasks_eq, hf]
    constructor
    · constructor
      · intro ⟨e, he⟩
        rw [hok] at he
        cases he
      · intro ⟨t, ht, a, ha, hnot⟩
        exact absurd ((contains_eq_true_iff _ _).mp
          (findUnknownDep_none _ _ hf t ht a ha)) hnot
    · intro e he
      rw [hok] at he
      cases he

/-- A quest list with an unknown dependency `x` on task `b`. -/
def demoBadQuests : List Quest :=
  [⟨"Q1", [demoTaskA, ⟨"b", some ["x"], none, false, none, .callback⟩]⟩]

theorem getTasks_unknown_dependency_witness :
    ∃ t ∈ (getTasksRun false demoBadQuests).2, ∃ a ∈ t.after.getD [],
      a ∉ ((getTasksRun false demoBadQuests).2.map Task.name) :=
  (getTasks_unknown_dependency demoBadQuests false).1.mp
    ⟨unknownDepMessage "Q1/x" "Q1/b", rfl⟩

/-- **C8**: with `implicitAfter = true`, a task that declares no `after`
and is not the first flattened task gets exactly the singleton list holding
the previous flattened task's final name; the first flattened task with no
declared `after` stays without dependencies; a task with an explicit
`after` keeps it (namespaced), with no implicit entry added. -/
theorem getTasks_implicit_after_prev (quests : List Quest) (i : Nat)
    (qn : String) (t : Task)
    (h : (questPairs quests)[i]? = some (qn, t)) :
    (t.after = none → 0 < i →
      ∃ prev cur, ((getTasksRun true quests).2)[i - 1]? = some prev ∧
        ((getTasksRun true quests).2)[i]? = some cur ∧
        cur.after = some [prev.name]) ∧
    (t.after = none → i = 0 →
      ∃ cur, ((getTasksRun true quests).2)[i]? = some cur ∧
        cur.after = none) ∧
    (∀ l, t.after = some l →
      ∃ cur, ((getTasksRun true quests).2)[i]? = some cur ∧
        cur.after = some (l.map (renameAfterEntry qn))) := by
  rw [getTasksRun_snd]
  obtain ⟨pv, h1, h2, h3⟩ := flattenPairs_getElem true (questPairs quests) none i qn t h
  refine ⟨?_, ?_, ?_⟩
  · intro hafter hi
    obtain ⟨j, hj⟩ : ∃ j, i = j + 1 := ⟨i - 1, by omega⟩
    obtain ⟨u, hu, hpv⟩ := h3 j hj
    refine ⟨u, stepTask qn true pv t, ?_, h1, ?_⟩
    · rw [hj]
      simpa using hu
    · rw [hpv]
      exact stepTask_after_none_implicit qn u.name t hafter
  · intro hafter hi
    refine ⟨stepTask qn true pv t, h1, ?_⟩
    rw [h2 hi]
    exact stepTask_after_none_first qn true t hafter
  · intro l hafter
    exact ⟨stepTask qn true pv t, h1, stepTask_after_some qn true pv t l hafter⟩

theorem getTasks_implicit_after_prev_witness :
    ∃ prev cur, ((getTasksRun true demoQuests).2)[0]? = some prev ∧
      ((getTasksRun true demoQuests).2)[1]? = some cur ∧
      cur.after = some [prev.name] :=
  (getTasks_implicit_after_prev demoQuests 1 "Q1" demoTaskB (by decide)).1
    rfl (by decide)

/-- The updated quests of a `implicitAfter = false` run: every task renamed
in place, quests otherwise unchanged. -/
theorem updatedQuests_false (prev : Option String) (quests : List Quest) :
    updatedQuests false prev quests =
      quests.map (fun q =>
        ⟨q.name, q.tasks.map (fun t => stepTask q.name false none t)⟩) := by
  induction quests generalizing prev with
  | nil => rfl
  | cons q rest ih =>
    rw [updatedQuests, flattenPairs_false, ih]
    simp [List.map_map, Function.comp]

/-- **C10**: `getTasks` mutates its input in place: the result list is
exactly the concatenation of the updated quests' task lists (the same task
objects), each with `name`/`after` overwritten and every other field
unchanged; running the flattening a second time over the updated quests
namespaces the already-namespaced names again. -/
theorem getTasks_mutates_input (quests : List Quest) (ia : Bool) :
    ((getTasksRun ia quests).1.flatMap Quest.tasks = (getTasksRun ia quests).2) ∧
    (∀ (i : Nat) (qn : String) (t : Task), (questPairs quests)[i]? = some (qn, t) →
      ∃ u : Task, ((getTasksRun ia quests).2)[i]? = some u ∧
        u.name = qn ++ "/" ++ t.name ∧ u.ready = t.ready ∧
        u.completed = t.completed ∧ u.limit = t.limit ∧ u.taskDo = t.taskDo) ∧
    ((getTasksRun false ((getTasksRun false quests).1)).2.map Task.name =
      quests.flatMap (fun q => q.tasks.map (fun t =>
        q.name ++ "/" ++ (q.name ++ "/" ++ t.name)))) := by
  refine ⟨?_, ?_, ?_⟩
  · rw [getTasksRun_fst, getTasksRun_snd, updatedQuests_flatMap]
  · intro i qn t h
    rw [getTasksRun_snd]
    obtain ⟨pv, h1, _, _⟩ := flattenPairs_getElem ia (questPairs quests) none i qn t h
    exact ⟨stepTask qn ia pv t, h1, rfl, rfl, rfl, rfl, rfl⟩
  · rw [getTasksRun_fst, updatedQuests_false, getTasksRun_snd, flattenPairs_false,
      questPairs, List.map_flatMap, List.map_flatMap]
    simp only [List.flatMap_map, List.map_map]
    rfl

theorem getTasks_mutates_input_witness :
    ∃ u, ((getTasksRun false demoQuests).2)[2]? = some u ∧
      u.name = "Q2" ++ "/" ++ demoTaskC.name ∧ u.ready = demoTaskC.ready ∧
      u.completed = demoTaskC.completed ∧ u.limit = demoTaskC.limit ∧
      u.taskDo = demoTaskC.taskDo :=
  (getTasks_mutates_input demoQuests false).2.1 2 "Q2" demoTaskC (by decide)

/-! ## Engine (source `engine.ts`)

The attempts record and the `tasks_by_name` map are insertion-ordered
string-keyed maps; `set` overwrites in place. -/

/-- `Map.set` / object-field assignment: overwrite in place or append. -/
def mapSet {α β : Type} [BEq α] (m : List (α × β)) (k : α) (v : β) :
    List (α × β) :=
  if (m.lookup k).isSome then
    m.map (fun p => if p.1 == k then (k, v) else p)
  else m ++ [(k, v)]

/-- `tasks_by_name`, built in the Engine constructor (`set` in task order;
a later task with the same name overwrites an earlier one). -/
def tasksByName (tasks : List Task) : List (String × Task) :=
  tasks.foldl (fun m t => mapSet m t.name t) []

/-- The dependency loop at the start of `Engine.available`: look every
`after` entry up in `tasks_by_name`; throw on an unknown name; return false
on the first incomplete dependency. -/
def availableLoop (byName : List (String × Task)) (taskName : String) :
    List String → Except String Bool
  | [] => .ok true
  | a :: rest =>
    match byName.lookup a with
    | none => .error ("Unknown task dependency " ++ a ++ " on " ++ taskName)
    | some ta =>
      if ta.completed then availableLoop byName taskName rest else .ok false

/-- `Engine.available`: all dependencies complete (checked directly, not
transitively), `ready` absent or true, and `completed` currently false. -/
def Engine.available (tasks : List Task) (task : Task) : Except String Bool :=
  match availableLoop (tasksByName tasks) task.name (task.after.getD []) with
  | .error e => .error e
  | .ok false => .ok false
  | .ok true =>
    if task.ready = some false then .ok false
    else if task.completed then .ok false
    else .ok true

/-- The current attempt count for a task name (`undefined` reads as 0:
`checkLimits` only compares it against positive bounds). -/
def attemptsGet (m : List (String × Nat)) (k : String) : Nat :=
  (m.lookup k).getD 0

/-- `Engine.markAttempt`: initialise the count to 0 if unseen, then
increment. -/
def Engine.markAttempt (m : List (String × Nat)) (task : Task) :
    List (String × Nat) :=
  mapSet m task.name (attemptsGet m task.name + 1)

/-- JS truthiness of an optional numeric field: absent and `0` are falsy. -/
def natTruthy : Option Nat → Bool
  | none => false
  | some n => n != 0

/-- JS truthiness of an optional string field: absent and `""` are falsy. -/
def strTruthy : Option String → Bool
  | none => false
  | some s => s != ""

/-- `task.limit.message ? ` $\x7btask.limit.message\x7d` : ""`. -/
def limitSuffix (lim : Limit) : String :=
  if strTruthy lim.message then " " ++ lim.message.getD "" else ""

def triesMessage (taskName : String) (n : Nat) (suffix : String) : String :=
  "Task " ++ taskName ++ " did not complete within " ++ toString n ++
    " attempts. Please check what went wrong." ++ suffix

def softMessage (taskName : String) (n : Nat) (suffix : String) : String :=
  "Task " ++ taskName ++ " did not complete within " ++ toString n ++
    " attempts. Please check what went wrong (you may just be unlucky)." ++ suffix

def turnsMessage (taskName : String) (n : Nat) (suffix : String) : String :=
  "Task " ++ taskName ++ " did not complete within " ++ toString n ++
    " turns. Please check what went wrong." ++ suffix

/-- `Engine.checkLimits`: throw if `tries` (then `soft`) is set and the
attempt count has reached it, or if `turns` is set, `do` is a location and
the turns spent there have reached it. -/
def Engine.checkLimits (m : List (String × Nat)) (task : Task) :
    Except String Unit :=
  match task.limit with
  | none => .ok ()
  | some lim =>
    if natTruthy lim.tries = true ∧ lim.tries.getD 0 ≤ attemptsGet m task.name then
      .error (triesMessage task.name (lim.tries.getD 0) (limitSuffix lim))
    else if natTruthy lim.soft = true ∧ lim.soft.getD 0 ≤ attemptsGet m task.name then
      .error (softMessage task.name (lim.soft.getD 0) (limitSuffix lim))
    else
      match lim.turns, task.taskDo with
      | some tn, .loc l =>
        if tn ≠ 0 ∧ tn ≤ l.turnsSpent then
          .error (turnsMessage task.name tn (limitSuffix lim))
        else .ok ()
      | _, _ => .ok ()

/-- The bookkeeping tail of `Engine.execute`: the preceding steps (acquire,
outfit, customize, dress, combat compilation, choices, resource prepare,
prepare, do, repeat loop, post) act only on the external world through the
collaborators of the engine and neither touch the attempts map nor raise a
limit error; then `execute` marks an attempt and, exactly when the task is
still not completed, checks the limits. -/
def Engine.executeRecord (m : List (String × Nat)) (task : Task) :
    Except String (List (String × Nat)) :=
  let m1 := Engine.markAttempt m task
  if task.completed then .ok m1
  else
    match Engine.checkLimits m1 task with
    | .ok _ => .ok m1
    | .error e => .error e

/-- `k` successive calls of `Engine.execute` on the same task within one
run, starting from the empty attempts record. -/
def Engine.runExecutes (task : Task) : Nat → Except String (List (String × Nat))
  | 0 => .ok []
  | k+1 =>
    match Engine.runExecutes task k with
    | .ok m => Engine.executeRecord m task
    | .error e => .error e

/-! ## Claims about the engine -/

theorem availableLoop_ok (byName : List (String × Task)) (nm : String) :
    ∀ (l : List String), (∀ a ∈ l, (byName.lookup a).isSome = true) →
      ∃ b, availableLoop byName nm l = .ok b ∧
        (b = true ↔ ∀ a ∈ l, ∀ ta, byName.lookup a = some ta →
          ta.completed = true) := by
  intro l
  induction l with
  | nil => exact fun _ => ⟨true, rfl, by simp⟩
  | cons a rest ih =>
    intro h
    obtain ⟨ta, hta⟩ := Option.isSome_iff_exists.mp (h a (by simp))
    obtain ⟨b, hb, hiff⟩ := ih (fun x hx => h x (by simp [hx]))
    cases hcomp : ta.completed with
    | true =>
      refine ⟨b, by simp [availableLoop, hta, hcomp, hb], ?_⟩
      rw [hiff]
      constructor
      · intro hrest x hx tx htx
        rcases List.mem_cons.mp hx with hxa | hxr
        · subst hxa
          rw [hta] at htx
          injection htx with h2
          rw [← h2]
          exact hcomp
        · exact hrest x hxr tx htx
      · intro hall x hx tx htx
        exact hall x (by simp [hx]) tx htx
    | false =>
      refine ⟨false, by simp [availableLoop, hta, hcomp], ?_⟩
      simp only [Bool.false_eq_true, false_iff]
      intro hall
      have hx := hall a (by simp) ta hta
      rw [hcomp] at hx
      cases hx

/-- **C1**: when every `after` entry of a task resolves in `tasks_by_name`,
`Engine.available` returns normally, and returns `true` iff every resolved
dependency currently reports `completed() = true`, `ready` is absent or
true, and the task's own `completed()` is currently false (so in particular
it returns `false` whenever `completed()` is true, even with no declared
dependencies). -/
theorem available_iff (tasks : List Task) (task : Task)
    (h : ∀ a ∈ task.after.getD [], ((tasksByName tasks).lookup a).isSome = true) :
    ∃ b, Engine.available tasks task = .ok b ∧
      (b = true ↔
        ((∀ a ∈ task.after.getD [], ∀ ta,
            (tasksByName tasks).lookup a = some ta → ta.completed = true) ∧
         task.ready ≠ some false ∧ task.completed = false)) := by
  obtain ⟨b0, hb0, hiff⟩ :=
    availableLoop_ok (tasksByName tasks) task.name (task.after.getD []) h
  unfold Engine.available
  rw [hb0]
  cases b0 with
  | false =>
    refine ⟨false, rfl, ?_⟩
    simp only [Bool.false_eq_true, false_iff]
    intro ⟨hdeps, _, _⟩
    cases hiff.mpr hdeps
  | true =>
    have hdeps := hiff.mp rfl
    by_cases hr : task.ready = some false
    · rw [if_pos hr]
      refine ⟨false, rfl, ?_⟩
      simp only [Bool.false_eq_true, false_iff]
      intro ⟨_, hr', _⟩
      exact hr' hr
    · rw [if_neg hr]
      cases hc : task.completed with
      | true =>
        refine ⟨false, by simp [hc], ?_⟩
        apply iff_of_false (by simp)
        intro ⟨_, _, hc'⟩
        cases hc'
      | false =>
        refine ⟨true, by simp [hc], ?_⟩
        exact iff_of_true rfl ⟨hdeps, hr, rfl⟩

/-- A completed task `A` and a task `B` depending on it. -/
def demoDone : Task := ⟨"A", none, none, true, none, .callback⟩

def demoBlocked : Task := ⟨"B", some ["A"], none, false, none, .callback⟩

theorem available_iff_witness :
    (∀ a ∈ demoBlocked.after.getD [],
      ((tasksByName [demoDone, demoBlocked]).lookup a).isSome = true) ∧
    ∃ b, Engine.available [demoDone, demoBlocked] demoBlocked = .ok b ∧
      (b = true ↔
        ((∀ a ∈ demoBlocked.after.getD [], ∀ ta,
            (tasksByName [demoDone, demoBlocked]).lookup a = some ta →
            ta.completed = true) ∧
         demoBlocked.ready ≠ some false ∧ demoBlocked.completed = false)) :=
  ⟨by decide, available_iff [demoDone, demoBlocked] demoBlocked (by decide)⟩

theorem attemptsGet_single (nm : String) (v : Nat) :
    attemptsGet [(nm, v)] nm = v := by
  simp [attemptsGet, List.lookup]

theorem markAttempt_state (t : Task) (k : Nat) :
    Engine.markAttempt (if k = 0 then [] else [(t.name, k)]) t =
      [(t.name, k + 1)] := by
  cases k with
  | zero => rfl
  | succ j => simp [Engine.markAttempt, mapSet, attemptsGet, List.lookup]

/-- Evaluation of `checkLimits` for a tries-only limit. -/
theorem checkLimits_tries (t : Task) (n : Nat) (msg : Option String)
    (m : List (String × Nat))
    (hlim : t.limit = some ⟨some n, none, none, msg⟩) (hn : 1 ≤ n) :
    Engine.checkLimits m t =
      if n ≤ attemptsGet m t.name then
        .error (triesMessage t.name n (limitSuffix ⟨some n, none, none, msg⟩))
      else .ok () := by
  unfold Engine.checkLimits
  rw [hlim]
  dsimp only
  by_cases hle : n ≤ attemptsGet m t.name
  · rw [if_pos ⟨by simp [natTruthy]; omega, by simpa using hle⟩, if_pos hle]
    rfl
  · rw [if_neg (fun hand => hle (by simpa using hand.2)), if_neg hle,
      if_neg (by simp [natTruthy])]

theorem runExecutes_below_limit (t : Task) (n : Nat) (msg : Option String)
    (hn : 1 ≤ n) (hc : t.completed = false)
    (hlim : t.limit = some ⟨some n, none, none, msg⟩) :
    ∀ k, k < n →
      Engine.runExecutes t k = .ok (if k = 0 then [] else [(t.name, k)]) := by
  intro k
  induction k with
  | zero => intro _; rfl
  | succ k ih =>
    intro hk
    have hprev := ih (by omega)
    have hcheck : Engine.checkLimits [(t.name, k + 1)] t = .ok () := by
      rw [checkLimits_tries t n msg _ hlim hn,
        if_neg (by rw [attemptsGet_single]; omega)]
    unfold Engine.runExecutes
    rw [hprev]
    simp [Engine.executeRecord, markAttempt_state, hc, hcheck]

/-- **C3**: a task whose `completed()` always returns false and whose limit
is `(tries: n)` (n ≥ 1) has its attempt counter incremented on each
`execute`; each of the first `n - 1` calls returns normally and the `n`-th
call raises the tries-exceeded error; and for any task whose `completed()`
is true at the end of `execute`, no limit check happens and no limit error
is raised, whatever the attempt count. -/
theorem execute_tries_limit (t : Task) (n : Nat) (msg : Option String)
    (hn : 1 ≤ n) (hc : t.completed = false)
    (hlim : t.limit = some ⟨some n, none, none, msg⟩) :
    (∀ k, k < n → ∃ m, Engine.runExecutes t k = .ok m ∧
      attemptsGet m t.name = k) ∧
    Engine.runExecutes t n =
      .error (triesMessage t.name n (limitSuffix ⟨some n, none, none, msg⟩)) ∧
    (∀ (m : List (String × Nat)) (u : Task), u.completed = true →
      Engine.executeRecord m u = .ok (Engine.markAttempt m u)) := by
  refine ⟨?_, ?_, ?_⟩
  · intro k hk
    refine ⟨if k = 0 then [] else [(t.name, k)],
      runExecutes_below_limit t n msg hn hc hlim k hk, ?_⟩
    cases k with
    | zero => rfl
    | succ j => simp [attemptsGet, List.lookup]
  · obtain ⟨j, hj⟩ : ∃ j, n = j + 1 := ⟨n - 1, by omega⟩
    subst hj
    have hprev := runExecutes_below_limit t (j + 1) msg hn hc hlim j (by omega)
    have hcheck : Engine.checkLimits [(t.name, j + 1)] t =
        .error (triesMessage t.name (j + 1)
          (limitSuffix ⟨some (j + 1), none, none, msg⟩)) := by
      rw [checkLimits_tries t (j + 1) msg _ hlim hn,
        if_pos (by simp [attemptsGet_single])]
    unfold Engine.runExecutes
    rw [hprev]
    simp [Engine.executeRecord, markAttempt_state, hc, hcheck]
  · intro m u hu
    simp [Engine.executeRecord, hu]

/-- A task with `limit: (tries: 3)` that never completes. -/
def demoLimitTask : Task :=
  ⟨"T", none, none, false, some ⟨some 3, none, none, none⟩, .callback⟩

theorem execute_tries_limit_witness :
    (∀ k, k < 3 → ∃ m, Engine.runExecutes demoLimitTask k = .ok m ∧
      attemptsGet m demoLimitTask.name = k) ∧
    Engine.runExecutes demoLimitTask 3 =
      .error (triesMessage demoLimitTask.name 3
        (limitSuffix ⟨some 3, none, none, none⟩)) ∧
    (∀ (m : List (String × Nat)) (u : Task), u.completed = true →
      Engine.executeRecord m u = .ok (Engine.markAttempt m u)) :=
  execute_tries_limit demoLimitTask 3 none (by decide) rfl rfl

/-! ## CombatStrategy (source `combat.ts`)

JS objects alias: `clone()` starts with `const result = (object spread of
this)`, which copies the four own fields — so the `macros` and `actions`
Map *references* are shared between `this` and `result` — and then calls
`result.macros.set`/`result.actions.set`, which write into those shared
maps.  To make this observable, CombatStrategy state lives in an explicit
store: arrays of macro fragments, macro maps (monster id ↦ array
reference) and action maps (monster id ↦ action name), all addressed by
indices.  Macro fragments are modelled by their literal text. -/

/-- The store backing CombatStrategy objects. -/
structure CombatStore where
  arrays : List (List String)
  macroMaps : List (List (Nat × Nat))
  actionMaps : List (List (Nat × String))
deriving DecidableEq, Repr

/-- A CombatStrategy object: the fields `starting_macro` (text),
`default_macro` (array reference), `macros` (macro-map reference) and
`actions` (action-map reference). -/
structure CombatStrategyObj where
  startingFragment : Option String
  defaultMacroRef : Option Nat
  macros : Nat
  actions : Nat
deriving DecidableEq, Repr

def arrGet (s : CombatStore) (r : Nat) : List String := (s.arrays[r]?).getD []

def arrSet (s : CombatStore) (r : Nat) (v : List String) : CombatStore :=
  { s with arrays := s.arrays.set r v }

def arrAlloc (s : CombatStore) (v : List String) : CombatStore × Nat :=
  ({ s with arrays := s.arrays ++ [v] }, s.arrays.length)

def mmEntries (s : CombatStore) (r : Nat) : List (Nat × Nat) :=
  (s.macroMaps[r]?).getD []

def mmSet (s : CombatStore) (r : Nat) (k : Nat) (v : Nat) : CombatStore :=
  { s with macroMaps := s.macroMaps.set r (mapSet (mmEntries s r) k v) }

def amEntries (s : CombatStore) (r : Nat) : List (Nat × String) :=
  (s.actionMaps[r]?).getD []

def amSet (s : CombatStore) (r : Nat) (k : Nat) (v : String) : CombatStore :=
  { s with actionMaps := s.actionMaps.set r (mapSet (amEntries s r) k v) }

/-- `CombatStrategy.macro(fragment, monster)` for a single monster without
`prepend`: create the monster's fragment list if missing, then push the
fragment onto it. -/
def csAddMacroFor (s : CombatStore) (cs : CombatStrategyObj) (fragment : String)
    (monster : Nat) : CombatStore :=
  match (mmEntries s cs.macros).lookup monster with
  | some r => arrSet s r (arrGet s r ++ [fragment])
  | none =>
    let p := arrAlloc s []
    let s1 := mmSet p.1 cs.macros monster p.2
    arrSet s1 p.2 (arrGet s1 p.2 ++ [fragment])

/-- `CombatStrategy.action(action, monster)` for a single monster. -/
def csSetActionFor (s : CombatStore) (cs : CombatStrategyObj) (action : String)
    (monster : Nat) : CombatStore :=
  amSet s cs.actions monster action

/-- `CombatStrategy.clone()`: spread-copy the fields (sharing the two map
references), replace `default_macro` by a fresh array copy, then for every
entry of `this.macros` write a fresh copy of its fragment array into
`result.macros` (the same map), and re-set every entry of `this.actions`
into `result.actions` (the same map). -/
def csClone (s : CombatStore) (cs : CombatStrategyObj) :
    CombatStore × CombatStrategyObj :=
  let step1 : CombatStore × CombatStrategyObj :=
    match cs.defaultMacroRef with
    | some r =>
      let p := arrAlloc s (arrGet s r)
      (p.1, { cs with defaultMacroRef := some p.2 })
    | none => (s, cs)
  let s2 := (mmEntries step1.1 cs.macros).foldl
    (fun st pair =>
      let p := arrAlloc st (arrGet st pair.2)
      mmSet p.1 cs.macros pair.1 p.2) step1.1
  let s3 := (amEntries s2 cs.actions).foldl
    (fun st pair => amSet st cs.actions pair.1 pair.2) s2
  (s3, step1.2)

/-- The fragment list the strategy currently holds for a monster. -/
def csMacroList (s : CombatStore) (cs : CombatStrategyObj) (monster : Nat) :
    Option (List String) :=
  ((mmEntries s cs.macros).lookup monster).map (arrGet s)

/-- The action the strategy currently holds for a monster. -/
def csActionFor (s : CombatStore) (cs : CombatStrategyObj) (monster : Nat) :
    Option String :=
  (amEntries s cs.actions).lookup monster

/-- A strategy holding the macro list `["attack"]` for monster 7 and no
actions. -/
def demoStore : CombatStore := ⟨[["attack"]], [[(7, 0)]], [[]]⟩

def demoCS : CombatStrategyObj := ⟨none, none, 0, 0⟩

/-- **C2** (code bug): `clone()` as written shares the `macros` and
`actions` maps between the original and the clone, because the object
spread copies the map references; so mutating the clone mutates the
original, contradicting both the claim and the method's own documentation
("Perform a deep copy of this combat strategy").  Evaluated at a concrete
input: the original holds `["attack"]` for monster 7 and no action;
after `clone()`, appending `"kill"` for monster 7 through the clone makes
the original report `["attack", "kill"]`, and setting action `"banish"`
for monster 7 through the clone makes the original report action
`"banish"`. -/
theorem clone_shares_maps :
    ((csClone demoStore demoCS).2.macros = demoCS.macros ∧
     (csClone demoStore demoCS).2.actions = demoCS.actions) ∧
    csMacroList demoStore demoCS 7 = some ["attack"] ∧
    csActionFor demoStore demoCS 7 = none ∧
    csMacroList
      (csAddMacroFor (csClone demoStore demoCS).1 (csClone demoStore demoCS).2
        "kill" 7)
      demoCS 7 = some ["attack", "kill"] ∧
    csActionFor
      (csSetActionFor (csClone demoStore demoCS).1 (csClone demoStore demoCS).2
        "banish" 7)
      demoCS 7 = some "banish" := by
  decide

/-! ## CompressedMacro (source `combat.ts`)

`CombatStrategy.compile` builds, for the target-macro block and then for
the target-action block, a `CompressedMacro` by calling `add(monster,
macro)` once per map entry; `add` keys on the literal text of the macro.
The block is modelled by the list of `(monster id, macro text)` pairs fed
to `add`, in iteration order. -/

/-- `CompressedMacro.add`: skip empty text; else append the monster to the
existing group for that text, or insert a new group at the end. -/
def cmAdd (components : List (String × List Nat)) (monster : Nat)
    (macroText : String) : List (String × List Nat) :=
  if macroText.length = 0 then components
  else if (components.lookup macroText).isSome then
    components.map (fun p =>
      if p.1 == macroText then (p.1, p.2 ++ [monster]) else p)
  else components ++ [(macroText, [monster])]

/-- `CompressedMacro.compile`: one conditional clause per component, whose
guard disjoins the `monsterid` tests of the grouped monsters. -/
def cmCompile (components : List (String × List Nat)) : List (String × String) :=
  components.map (fun p =>
    (String.intercalate " || " (p.2.map (fun mid => "monsterid " ++ toString mid)),
     p.1))

/-- The sequence of `add` calls of one block. -/
def buildComponents (entries : List (Nat × String)) : List (String × List Nat) :=
  entries.foldl (fun c e => cmAdd c e.1 e.2) []

/-- One compiled block of `CombatStrategy.compile`. -/
def compileBlock (entries : List (Nat × String)) : List (String × String) :=
  cmCompile (buildComponents entries)

/-- The distinct non-empty macro texts of a block, in first-appearance
order. -/
def distinctTexts (entries : List (Nat × String)) : List String :=
  ((entries.filter (fun e => e.2.length != 0)).map (fun e => e.2)).foldl
    (fun acc t => if t ∈ acc then acc else acc ++ [t]) []

/-- All targets of a block whose macro text is `txt`, in order. -/
def groupTargets (entries : List (Nat × String)) (txt : String) : List Nat :=
  (entries.filter (fun e => e.2 == txt)).map (fun e => e.1)

theorem mem_foldl_insert (l : List String) (acc : List String) (x : String) :
    x ∈ l.foldl (fun acc t => if t ∈ acc then acc else acc ++ [t]) acc ↔
      x ∈ acc ∨ x ∈ l := by
  induction l generalizing acc with
  | nil => simp
  | cons t rest ih =>
    simp only [List.foldl_cons]
    by_cases ht : t ∈ acc
    · rw [if_pos ht, ih]
      simp only [List.mem_cons]
      constructor
      · rintro (hx | hx)
        · exact Or.inl hx
        · exact Or.inr (Or.inr hx)
      · rintro (hx | hx | hx)
        · exact Or.inl hx
        · exact Or.inl (hx ▸ ht)
        · exact Or.inr hx
    · rw [if_neg ht, ih]
      simp only [List.mem_append, List.mem_singleton, List.mem_cons]
      tauto

theorem mem_distinctTexts (entries : List (Nat × String)) (x : String) :
    x ∈ distinctTexts entries ↔
      x.length ≠ 0 ∧ ∃ e ∈ entries, e.2 = x := by
  unfold distinctTexts
  rw [mem_foldl_insert]
  simp only [List.not_mem_nil, false_or, List.mem_map, List.mem_filter,
    bne_iff_ne, ne_eq]
  constructor
  · rintro ⟨e, ⟨he, hlen⟩, hx⟩
    exact ⟨hx ▸ hlen, e, he, hx⟩
  · rintro ⟨hlen, e, he, hx⟩
    exact ⟨e, ⟨he, hx ▸ hlen⟩, hx⟩

theorem lookup_map_pair (g : String → List Nat) (x : String) :
    ∀ (l : List String),
      ((l.map (fun t => (t, g t))).lookup x) =
        if x ∈ l then some (g x) else none := by
  intro l
  induction l with
  | nil => rfl
  | cons t rest ih =>
    simp only [List.map_cons, List.lookup_cons]
    by_cases hx : x = t
    · subst hx
      simp
    · have hbeq : (x == t) = false := by simp [hx]
      rw [hbeq]
      rw [ih]
      simp [List.mem_cons, hx]

theorem distinctTexts_append (es : List (Nat × String)) (e : Nat × String) :
    distinctTexts (es ++ [e]) =
      if e.2.length = 0 then distinctTexts es
      else if e.2 ∈ distinctTexts es then distinctTexts es
      else distinctTexts es ++ [e.2] := by
  unfold distinctTexts
  rw [List.filter_append, List.map_append, List.foldl_append]
  by_cases h0 : e.2.length = 0
  · rw [if_pos h0]
    simp [List.filter_cons, h0]
  · rw [if_neg h0]
    simp only [List.filter_cons, List.filter_nil, bne_iff_ne, ne_eq, h0,
      not_false_eq_true, if_true, List.map_cons, List.map_nil, List.foldl_cons,
      List.foldl_nil]

theorem groupTargets_append (es : List (Nat × String)) (e : Nat × String)
    (txt : String) :
    groupTargets (es ++ [e]) txt =
      groupTargets es txt ++ if e.2 = txt then [e.1] else [] := by
  unfold groupTargets
  rw [List.filter_append, List.map_append]
  congr 1
  by_cases h : e.2 = txt <;> simp [List.filter_cons, h]

theorem groupTargets_eq_nil (es : List (Nat × String)) (txt : String)
    (h : ∀ e ∈ es, e.2 ≠ txt) : groupTargets es txt = [] := by
  unfold groupTargets
  rw [List.filter_eq_nil_iff.mpr (by simpa using h)]
  rfl

theorem buildComponents_append (es : List (Nat × String)) (e : Nat × String) :
    buildComponents (es ++ [e]) = cmAdd (buildComponents es) e.1 e.2 := by
  unfold buildComponents
  rw [List.foldl_append]
  rfl

theorem buildComponents_eq (entries : List (Nat × String)) :
    buildComponents entries =
      (distinctTexts entries).map (fun txt => (txt, groupTargets entries txt)) := by
  induction entries using List.reverseRecOn with
  | nil => rfl
  | append_singleton es e ih =>
    rw [buildComponents_append, ih, distinctTexts_append, cmAdd]
    by_cases h0 : e.2.length = 0
    · rw [if_pos h0, if_pos h0]
      apply List.map_congr_left
      intro txt htxt
      have hne : e.2 ≠ txt := by
        intro hx
        exact ((mem_distinctTexts es txt).mp htxt).1 (hx ▸ h0)
      rw [groupTargets_append, if_neg hne, List.append_nil]
    · rw [if_neg h0, if_neg h0, lookup_map_pair]
      by_cases hmem : e.2 ∈ distinctTexts es
      · rw [if_pos hmem, if_pos hmem, if_pos (by simp), List.map_map]
        apply List.map_congr_left
        intro txt htxt
        simp only [Function.comp]
        by_cases hx : txt = e.2
        · subst hx
          simp only [beq_self_eq_true, if_true]
          rw [groupTargets_append, if_pos rfl]
        · have hbeq : (txt == e.2) = false := by simp [hx]
          rw [hbeq]
          simp only [Bool.false_eq_true, if_false]
          rw [groupTargets_append, if_neg (fun hh => hx hh.symm), List.append_nil]
      · rw [if_neg hmem, if_neg hmem, if_neg (by simp), List.map_append]
        congr 1
        · apply List.map_congr_left
          intro txt htxt
          have hne : e.2 ≠ txt := fun hx => hmem (hx ▸ htxt)
          rw [groupTargets_append, if_neg hne, List.append_nil]
        · simp only [List.map_cons, List.map_nil]
          rw [groupTargets_append, if_pos rfl,
            groupTargets_eq_nil es e.2
              (fun x hx hx2 => hmem ((mem_distinctTexts es e.2).mpr
                ⟨h0, x, hx, hx2⟩))]
          rfl

/-- **C5**: compiling a target-specific block (macro block or action block)
groups targets by the literal text of the macro that would run for them:
the output has exactly one conditional clause per distinct non-empty macro
text, in first-appearance order, whose guard is the disjunction of the
`monsterid` identity tests of all targets grouped under that text, and any
target with empty macro text contributes no clause. -/
theorem compileBlock_groups (entries : List (Nat × String)) :
    compileBlock entries =
      (distinctTexts entries).map (fun txt =>
        (String.intercalate " || "
          ((groupTargets entries txt).map (fun mid => "monsterid " ++ toString mid)),
         txt)) := by
  unfold compileBlock cmCompile
  rw [buildComponents_eq, List.map_map]
  rfl

/-! ## Router (`orderByRoute`, source `task.ts`)

Priorities are JS numbers whose only values are the sentinel `1000`, a
routing index `i`, and `i - 0.01·k` after `k` recursion levels; they are
stored here exactly, scaled by `100` as integers (`1000 ↦ 100000`,
`i ↦ 100·i`, `- 0.01 ↦ - 1`), an order-isomorphic encoding that keeps all
comparisons exact.  The JS recursion has no depth bound; the embedding
takes an explicit recursion budget `fuel`, and every claim is stated for a
sufficiently large budget.  The final stable comparator sort is modelled by
the stable `List.insertionSort`. -/

/-- The priorities map: name ↦ (scaled priority, task). -/
abbrev PMap := List (String × (Int × Task))

/-- `(priorities.get(name) || [1000])[0]`, scaled. -/
def prioAt (pm : PMap) (k : String) : Int :=
  match pm.lookup k with
  | some v => v.1
  | none => 100000

/-- `for (const task of tasks) priorities.set(task.name, [1000, task])`. -/
def initPriorities (tasks : List Task) : PMap :=
  tasks.foldl (fun m t => mapSet m t.name (100000, t)) []

/-- The outcome of a routing computation: budget exhausted, a thrown
string, or a result. -/
inductive RouteRes (α : Type) where
  | fuelOut
  | thrown (e : String)
  | done (a : α)
deriving DecidableEq, Repr

/-- `setPriorityRecursive(task, priority)` with recursion-depth budget
`fuel`: unknown names throw (or are skipped under `ignore_missing_tasks`);
a priority that does not improve stops; otherwise the priority is lowered
and every direct dependency is visited with priority lower by `0.01`
(scaled: by 1). -/
def setPriorityRecursive (im : Bool) : Nat → PMap → String → Int → RouteRes PMap
  | 0, _, _, _ => .fuelOut
  | Nat.succ f, pm, name, p =>
    match pm.lookup name with
    | none =>
      if im then .done pm else .thrown ("Unknown routing task " ++ name)
    | some old =>
      if old.1 ≤ p then .done pm
      else
        (old.2.after.getD []).foldl
          (fun acc d =>
            match acc with
            | .done pmAcc => setPriorityRecursive im f pmAcc d (p - 1)
            | r => r)
          (.done (mapSet pm name (p, old.2)))

/-- The loop over `old_priority[1].after` inside `setPriorityRecursive`,
as a standalone function of the remaining budget. -/
def setPriorityDeps (im : Bool) (fuel : Nat) (pm : PMap) (deps : List String)
    (q : Int) : RouteRes PMap :=
  deps.foldl
    (fun acc d =>
      match acc with
      | .done pmAcc => setPriorityRecursive im fuel pmAcc d q
      | r => r)
    (.done pm)

/-- `for (let i = 0; i < routing.length; i++) setPriorityRecursive(routing[i], i)`. -/
def applyRouting (im : Bool) (fuel : Nat) :
    PMap → List String → Nat → RouteRes PMap
  | pm, [], _ => .done pm
  | pm, r :: rest, i =>
    match setPriorityRecursive im fuel pm r (100 * (i : Int)) with
    | .done pm2 => applyRouting im fuel pm2 rest (i + 1)
    | .thrown e => .thrown e
    | .fuelOut => .fuelOut

/-- `orderByRoute`: build the priority map, run the routing loop, then
stably sort the task list by ascending priority (the comparator reads
`(priorities.get(name) || [1000])[0]`; ties keep input order). -/
def orderByRoute (fuel : Nat) (tasks : List Task) (routing : List String)
    (ignoreMissing : Bool) : RouteRes (List Task) :=
  match applyRouting ignoreMissing fuel (initPriorities tasks) routing 0 with
  | .done pm =>
    .done (tasks.insertionSort (fun a b => prioAt pm a.name ≤ prioAt pm b.name))
  | .thrown e => .thrown e
  | .fuelOut => .fuelOut

/-! ### Map lemmas for `mapSet` -/

theorem lookup_map_preserve {α β : Type} [BEq α] [LawfulBEq α]
    (k : α) (v : β) (k' : α) (hk : (k' == k) = false) :
    ∀ (m : List (α × β)),
      (m.map (fun p => if p.1 == k then (k, v) else p)).lookup k' =
        m.lookup k' := by
  intro m
  induction m with
  | nil => rfl
  | cons p rest ih =>
    simp only [List.map_cons]
    by_cases hpk : (p.1 == k) = true
    · have hp1 : p.1 = k := eq_of_beq hpk
      rw [if_pos hpk, List.lookup_cons, List.lookup_cons, hp1, hk]
      exact ih
    · rw [if_neg (by simp [hpk]), List.lookup_cons, List.lookup_cons]
      cases hkp : (k' == p.1) with
      | true => rfl
      | false => exact ih

theorem lookup_map_hit {α β : Type} [BEq α] [LawfulBEq α]
    (k : α) (v : β) :
    ∀ (m : List (α × β)), (m.lookup k).isSome = true →
      (m.map (fun p => if p.1 == k then (k, v) else p)).lookup k = some v := by
  intro m
  induction m with
  | nil => intro h; cases h
  | cons p rest ih =>
    intro h
    simp only [List.map_cons]
    by_cases hpk : (p.1 == k) = true
    · rw [if_pos hpk, List.lookup_cons]
      simp
    · rw [if_neg (by simp [hpk]), List.lookup_cons]
      have hkp : (k == p.1) = false := by
        rw [beq_eq_false_iff_ne]
        intro hh
        subst hh
        exact hpk (beq_self_eq_true _)
      rw [hkp]
      apply ih
      rw [List.lookup_cons, hkp] at h
      exact h

theorem lookup_append_left {α β : Type} [BEq α] (k : α) :
    ∀ (m l : List (α × β)), (m.lookup k).isSome = true →
      (m ++ l).lookup k = m.lookup k := by
  intro m l
  induction m with
  | nil => intro h; cases h
  | cons p rest ih =>
    intro h
    rw [List.cons_append, List.lookup_cons, List.lookup_cons]
    cases hkp : (k == p.1) with
    | true => rfl
    | false =>
      apply ih
      rw [List.lookup_cons, hkp] at h
      exact h

theorem lookup_append_right {α β : Type} [BEq α] (k : α) :
    ∀ (m l : List (α × β)), m.lookup k = none →
      (m ++ l).lookup k = l.lookup k := by
  intro m l
  induction m with
  | nil => intro _; rfl
  | cons p rest ih =>
    intro h
    rw [List.lookup_cons] at h
    rw [List.cons_append, List.lookup_cons]
    cases hkp : (k == p.1) with
    | true => rw [hkp] at h; cases h
    | false => rw [hkp] at h; exact ih h

theorem lookup_mapSet {α β : Type} [BEq α] [LawfulBEq α]
    (m : List (α × β)) (k : α) (v : β) (k' : α) :
    (mapSet m k v).lookup k' =
      if (k' == k) = true then some v else m.lookup k' := by
  unfold mapSet
  by_cases hk : (m.lookup k).isSome = true
  · rw [if_pos hk]
    by_cases hkk : (k' == k) = true
    · rw [if_pos hkk, eq_of_beq hkk]
      exact lookup_map_hit k v m hk
    · rw [if_neg hkk]
      exact lookup_map_preserve k v k' (by simpa using hkk) m
  · rw [if_neg hk]
    by_cases hkk : (k' == k) = true
    · rw [if_pos hkk, eq_of_beq hkk,
        lookup_append_right k m [(k, v)] (by cases hh : m.lookup k with
          | none => rfl
          | some w => rw [hh] at hk; cases hk rfl)]
      simp [List.lookup_cons]
    · rw [if_neg hkk]
      have hkkf : (k' == k) = false := by simpa using hkk
      cases hm : m.lookup k' with
      | some w => rw [lookup_append_left k' m [(k, v)] (by rw [hm]; rfl), hm]
      | none =>
        rw [lookup_append_right k' m [(k, v)] hm, List.lookup_cons, hkkf]
        rfl

theorem prioAt_mapSet (pm : PMap) (k : String) (v : Int × Task) (k' : String) :
    prioAt (mapSet pm k v) k' = if k' = k then v.1 else prioAt pm k' := by
  unfold prioAt
  rw [lookup_mapSet]
  by_cases h : k' = k
  · rw [if_pos (by simp [h]), if_pos h]
  · rw [if_neg (by simp [h]), if_neg h]

/-- The task stored under a name (the second component of a map value). -/
def taskAt (pm : PMap) (k : String) : Option Task :=
  (pm.lookup k).map (fun v => v.2)

theorem taskAt_mapSet (pm : PMap) (k : String) (v : Int × Task) (k' : String) :
    taskAt (mapSet pm k v) k' = if k' = k then some v.2 else taskAt pm k' := by
  unfold taskAt
  rw [lookup_mapSet]
  by_cases h : k' = k
  · rw [if_pos (by simp [h]), if_pos h]
    rfl
  · rw [if_neg (by simp [h]), if_neg h]

/-! ### Invariants of the priority propagation -/

def inDom (pm : PMap) (k : String) : Prop := (pm.lookup k).isSome = true

/-- `a`'s stored task lists `b` among its direct dependencies. -/
def edgeAt (pm : PMap) (a b : String) : Prop :=
  ∃ v, pm.lookup a = some v ∧ b ∈ v.2.after.getD []

/-- After a completed propagation, a name holds the sentinel or all its
in-map dependencies sit at least one scaled step (`0.01`) lower. -/
def okAt (pm : PMap) (t : String) : Prop :=
  prioAt pm t = 100000 ∨
    ∀ d, edgeAt pm t d → inDom pm d → prioAt pm d ≤ prioAt pm t - 1

/-- The composable postcondition of one successful propagation call. -/
structure StepInv (pm pm2 : PMap) : Prop where
  taskEq : ∀ k, taskAt pm2 k = taskAt pm k
  mono : ∀ k, prioAt pm2 k ≤ prioAt pm k
  newOK : ∀ t, prioAt pm2 t < prioAt pm t → okAt pm2 t

theorem stepInv_refl (pm : PMap) : StepInv pm pm :=
  ⟨fun _ => rfl, fun _ => le_refl _, fun _ h => absurd h (lt_irrefl _)⟩

theorem taskEq_lookup (pm pm2 : PMap)
    (hte : ∀ k, taskAt pm2 k = taskAt pm k) (a : String) (v : Int × Task)
    (hv : pm2.lookup a = some v) : ∃ w, pm.lookup a = some w ∧ w.2 = v.2 := by
  have h := hte a
  unfold taskAt at h
  rw [hv] at h
  cases hl : pm.lookup a with
  | none =>
    rw [hl] at h
    cases h
  | some w =>
    rw [hl] at h
    simp only [Option.map_some', Option.some.injEq] at h
    exact ⟨w, rfl, h.symm⟩

theorem inDom_iff_of_taskEq (pm pm2 : PMap)
    (hte : ∀ k, taskAt pm2 k = taskAt pm k) (k : String) :
    inDom pm2 k ↔ inDom pm k := by
  have h := hte k
  unfold taskAt at h
  unfold inDom
  cases hl2 : pm2.lookup k <;> cases hl : pm.lookup k <;>
    rw [hl2, hl] at h <;> simp_all

theorem edgeAt_iff_of_taskEq (pm pm2 : PMap)
    (hte : ∀ k, taskAt pm2 k = taskAt pm k) (a b : String) :
    edgeAt pm2 a b ↔ edgeAt pm a b := by
  constructor
  · rintro ⟨v, hv, hb⟩
    obtain ⟨w, hw, hw2⟩ := taskEq_lookup pm pm2 hte a v hv
    exact ⟨w, hw, hw2 ▸ hb⟩
  · rintro ⟨v, hv, hb⟩
    obtain ⟨w, hw, hw2⟩ :=
      taskEq_lookup pm2 pm (fun k => (hte k).symm) a v hv
    exact ⟨w, hw, hw2 ▸ hb⟩

theorem okAt_of_eq_prio (pm pm2 : PMap) (inv : StepInv pm pm2) (t : String)
    (heq : prioAt pm2 t = prioAt pm t) (h : okAt pm t) : okAt pm2 t := by
  cases h with
  | inl h => exact Or.inl (heq ▸ h)
  | inr h =>
    right
    intro d hd hdom
    have hd2 := (edgeAt_iff_of_taskEq pm pm2 inv.taskEq t d).mp hd
    have hdom2 := (inDom_iff_of_taskEq pm pm2 inv.taskEq d).mp hdom
    calc prioAt pm2 d ≤ prioAt pm d := inv.mono d
    _ ≤ prioAt pm t - 1 := h d hd2 hdom2
    _ = prioAt pm2 t - 1 := by rw [heq]

theorem okAt_preserved (pm pm2 : PMap) (inv : StepInv pm pm2) (t : String)
    (h : okAt pm t) : okAt pm2 t := by
  rcases lt_or_eq_of_le (inv.mono t) with hlt | heq
  · exact inv.newOK t hlt
  · exact okAt_of_eq_prio pm pm2 inv t heq h

theorem stepInv_trans (pm1 pm2 pm3 : PMap) (i12 : StepInv pm1 pm2)
    (i23 : StepInv pm2 pm3) : StepInv pm1 pm3 := by
  refine ⟨fun k => (i23.taskEq k).trans (i12.taskEq k),
    fun k => le_trans (i23.mono k) (i12.mono k), ?_⟩
  intro t hlt
  rcases lt_or_eq_of_le (i23.mono t) with h3 | h3
  · exact i23.newOK t h3
  · exact okAt_of_eq_prio pm2 pm3 i23 t h3 (i12.newOK t (h3 ▸ hlt))

/-! ### Unfolding equations -/

theorem spr_zero (im : Bool) (pm : PMap) (name : String) (p : Int) :
    setPriorityRecursive im 0 pm name p = .fuelOut := rfl

theorem spr_succ (im : Bool) (f : Nat) (pm : PMap) (name : String) (p : Int) :
    setPriorityRecursive im (f + 1) pm name p =
      match pm.lookup name with
      | none =>
        if im then .done pm else .thrown ("Unknown routing task " ++ name)
      | some old =>
        if old.1 ≤ p then .done pm
        else
          setPriorityDeps im f (mapSet pm name (p, old.2))
            (old.2.after.getD []) (p - 1) := rfl

theorem spd_nil (im : Bool) (fuel : Nat) (pm : PMap) (q : Int) :
    setPriorityDeps im fuel pm [] q = .done pm := rfl

theorem spd_stuck (im : Bool) (fuel : Nat) (q : Int) (r : RouteRes PMap)
    (hr : ∀ pm, r ≠ .done pm) :
    ∀ (deps : List String),
      deps.foldl
        (fun acc d =>
          match acc with
          | .done pmAcc => setPriorityRecursive im fuel pmAcc d q
          | r => r) r = r := by
  intro deps
  induction deps with
  | nil => rfl
  | cons d rest ih =>
    rw [List.foldl_cons]
    cases r with
    | done pm => exact absurd rfl (hr pm)
    | thrown e => exact ih
    | fuelOut => exact ih

theorem spd_cons (im : Bool) (fuel : Nat) (pm : PMap) (d : String)
    (rest : List String) (q : Int) :
    setPriorityDeps im fuel pm (d :: rest) q =
      match setPriorityRecursive im fuel pm d q with
      | .done pm2 => setPriorityDeps im fuel pm2 rest q
      | .thrown e => .thrown e
      | .fuelOut => .fuelOut := by
  unfold setPriorityDeps
  rw [List.foldl_cons]
  dsimp only
  cases h : setPriorityRecursive im fuel pm d q with
  | done pm2 => rfl
  | thrown e => exact spd_stuck im fuel q (.thrown e) (fun pm hh => by cases hh) rest
  | fuelOut => exact spd_stuck im fuel q .fuelOut (fun pm hh => by cases hh) rest

/-! ### Postconditions of a successful propagation -/

theorem spr_bundle (im : Bool) :
    ∀ fuel : Nat,
      (∀ pm name p pm2, setPriorityRecursive im fuel pm name p = .done pm2 →
        StepInv pm pm2 ∧ (inDom pm name → prioAt pm2 name ≤ p)) ∧
      (∀ pm deps q pm2, setPriorityDeps im fuel pm deps q = .done pm2 →
        StepInv pm pm2 ∧ ∀ d ∈ deps, inDom pm d → prioAt pm2 d ≤ q) := by
  intro fuel
  induction fuel with
  | zero =>
    constructor
    · intro pm name p pm2 h
      rw [spr_zero] at h
      cases h
    · intro pm deps q pm2 h
      cases deps with
      | nil =>
        rw [spd_nil] at h
        injection h with h2
        subst h2
        exact ⟨stepInv_refl pm, fun d hd => absurd hd (List.not_mem_nil d)⟩
      | cons d rest =>
        rw [spd_cons, spr_zero] at h
        cases h
  | succ f ih =>
    have recStep : ∀ pm name p pm2,
        setPriorityRecursive im (f + 1) pm name p = .done pm2 →
        StepInv pm pm2 ∧ (inDom pm name → prioAt pm2 name ≤ p) := by
      intro pm name p pm2 h
      rw [spr_succ] at h
      cases hl : pm.lookup name with
      | none =>
        rw [hl] at h
        cases him : im with
        | true =>
          rw [him] at h
          simp only [if_true] at h
          injection h with h2
          subst h2
          refine ⟨stepInv_refl pm, fun hdom => ?_⟩
          rw [inDom, hl] at hdom
          cases hdom
        | false =>
          rw [him] at h
          simp only [Bool.false_eq_true, if_false] at h
          cases h
      | some old =>
        rw [hl] at h
        dsimp only at h
        by_cases hle : old.1 ≤ p
        · rw [if_pos hle] at h
          injection h with h2
          subst h2
          refine ⟨stepInv_refl pm, fun _ => ?_⟩
          unfold prioAt
          rw [hl]
          exact hle
        · rw [if_neg hle] at h
          have hplt : p < old.1 := Int.not_le.mp hle
          obtain ⟨invD, depB⟩ := ih.2 (mapSet pm name (p, old.2))
            (old.2.after.getD []) (p - 1) pm2 h
          have hte1 : ∀ k, taskAt (mapSet pm name (p, old.2)) k = taskAt pm k := by
            intro k
            rw [taskAt_mapSet]
            by_cases hk : k = name
            · rw [if_pos hk, hk]
              unfold taskAt
              rw [hl]
              rfl
            · rw [if_neg hk]
          have hmono1 : ∀ k, prioAt (mapSet pm name (p, old.2)) k ≤ prioAt pm k := by
            intro k
            rw [prioAt_mapSet]
            by_cases hk : k = name
            · rw [if_pos hk, hk]
              unfold prioAt
              rw [hl]
              dsimp only
              omega
            · rw [if_neg hk]
          have hp1 : prioAt (mapSet pm name (p, old.2)) name = p := by
            rw [prioAt_mapSet, if_pos rfl]
          refine ⟨⟨fun k => (invD.taskEq k).trans (hte1 k),
            fun k => le_trans (invD.mono k) (hmono1 k), ?_⟩, ?_⟩
          · intro t hlt
            by_cases ht : t = name
            · rcases lt_or_eq_of_le (invD.mono t) with h2 | h2
              · exact invD.newOK t h2
              · right
                intro dd hdd hdom
                have hdd2 := (edgeAt_iff_of_taskEq _ _
                  (fun k => (invD.taskEq k).trans (hte1 k)) t dd).mp hdd
                obtain ⟨v, hv, hmem⟩ := hdd2
                rw [ht, hl] at hv
                injection hv with hv2
                subst hv2
                have hdom1 : inDom (mapSet pm name (p, old.2)) dd :=
                  (inDom_iff_of_taskEq _ _ invD.taskEq dd).mp hdom
                have hdb := depB dd hmem hdom1
                rw [h2, ht, hp1]
                omega
            · have heq1 : prioAt (mapSet pm name (p, old.2)) t = prioAt pm t := by
                rw [prioAt_mapSet, if_neg ht]
              exact invD.newOK t (heq1 ▸ hlt)
          · intro _
            exact le_trans (invD.mono name) (le_of_eq hp1)
    refine ⟨recStep, ?_⟩
    intro pm deps
    induction deps generalizing pm with
    | nil =>
      intro q pm2 h
      rw [spd_nil] at h
      injection h with h2
      subst h2
      exact ⟨stepInv_refl pm, fun d hd => absurd hd (List.not_mem_nil d)⟩
    | cons d rest ihd =>
      intro q pm2 h
      rw [spd_cons] at h
      cases hr : setPriorityRecursive im (f + 1) pm d q with
      | done pmA =>
        rw [hr] at h
        obtain ⟨invA, bndA⟩ := recStep pm d q pmA hr
        obtain ⟨invR, bndR⟩ := ihd pmA q pm2 h
        refine ⟨stepInv_trans pm pmA pm2 invA invR, ?_⟩
        intro x hx hdomx
        rcases List.mem_cons.mp hx with hxd | hxr
        · subst hxd
          exact le_trans (invR.mono x) (bndA hdomx)
        · exact bndR x hxr ((inDom_iff_of_taskEq pm pmA invA.taskEq x).mpr hdomx)
      | thrown e =>
        rw [hr] at h
        cases h
      | fuelOut =>
        rw [hr] at h
        cases h

theorem ar_nil (im : Bool) (fuel : Nat) (pm : PMap) (i : Nat) :
    applyRouting im fuel pm [] i = .done pm := rfl

theorem ar_cons (im : Bool) (fuel : Nat) (pm : PMap) (r : String)
    (rest : List String) (i : Nat) :
    applyRouting im fuel pm (r :: rest) i =
      match setPriorityRecursive im fuel pm r (100 * (i : Int)) with
      | .done pm2 => applyRouting im fuel pm2 rest (i + 1)
      | .thrown e => .thrown e
      | .fuelOut => .fuelOut := rfl

theorem applyRouting_bundle (im : Bool) (fuel : Nat) :
    ∀ (routing : List String) (pm : PMap) (i0 : Nat) (pm2 : PMap),
      applyRouting im fuel pm routing i0 = .done pm2 →
      StepInv pm pm2 ∧
        ∀ (j : Nat) (x : String), routing[j]? = some x → inDom pm x →
          prioAt pm2 x ≤ 100 * ((i0 : Int) + (j : Int)) := by
  intro routing
  induction routing with
  | nil =>
    intro pm i0 pm2 h
    rw [ar_nil] at h
    injection h with h2
    subst h2
    exact ⟨stepInv_refl pm, fun j x hj => by simp at hj⟩
  | cons r rest ih =>
    intro pm i0 pm2 h
    rw [ar_cons] at h
    cases hr : setPriorityRecursive im fuel pm r (100 * (i0 : Int)) with
    | done pmA =>
      rw [hr] at h
      obtain ⟨invA, bndA⟩ := (spr_bundle im fuel).1 pm r (100 * (i0 : Int)) pmA hr
      obtain ⟨invR, bndR⟩ := ih pmA (i0 + 1) pm2 h
      refine ⟨stepInv_trans pm pmA pm2 invA invR, ?_⟩
      intro j x hj hdom
      cases j with
      | zero =>
        simp only [List.getElem?_cons_zero, Option.some.injEq] at hj
        subst hj
        have h1 := le_trans (invR.mono r) (bndA hdom)
        have : ((i0 : Int) + (0 : Nat)) = (i0 : Int) := by push_cast; ring
        rw [this]
        exact h1
      | succ j =>
        simp only [List.getElem?_cons_succ] at hj
        have h1 := bndR j x hj
          ((inDom_iff_of_taskEq pm pmA invA.taskEq x).mpr hdom)
        have h2 : 100 * (((i0 + 1 : Nat) : Int) + (j : Int)) =
            100 * ((i0 : Int) + ((j + 1 : Nat) : Int)) := by push_cast; ring
        rw [← h2]
        exact h1
    | thrown e =>
      rw [hr] at h
      cases h
    | fuelOut =>
      rw [hr] at h
      cases h

/-! ### Properties of the initial priority map -/

theorem initPriorities_prop (tasks : List Task) :
    ∀ k v, (initPriorities tasks).lookup k = some v →
      v.1 = 100000 ∧ v.2 ∈ tasks ∧ v.2.name = k := by
  have main : ∀ (ts : List Task) (m : PMap),
      (∀ t ∈ ts, t ∈ tasks) →
      (∀ k v, m.lookup k = some v → v.1 = 100000 ∧ v.2 ∈ tasks ∧ v.2.name = k) →
      ∀ k v, (ts.foldl (fun m t => mapSet m t.name (100000, t)) m).lookup k
          = some v →
        v.1 = 100000 ∧ v.2 ∈ tasks ∧ v.2.name = k := by
    intro ts
    induction ts with
    | nil => intro m _ hm k v h; exact hm k v h
    | cons t rest ihp =>
      intro m hsub hm k v h
      rw [List.foldl_cons] at h
      refine ihp (mapSet m t.name (100000, t))
        (fun x hx => hsub x (by simp [hx])) ?_ k v h
      intro k2 v2 h2
      rw [lookup_mapSet] at h2
      by_cases hk : (k2 == t.name) = true
      · rw [if_pos hk] at h2
        injection h2 with h3
        subst h3
        exact ⟨rfl, hsub t (by simp), (eq_of_beq hk).symm⟩
      · rw [if_neg hk] at h2
        exact hm k2 v2 h2
  exact main tasks [] (fun t ht => ht) (fun k v h => by cases h)

theorem inDom_init_of_mem (tasks : List Task) (t : Task) (ht : t ∈ tasks) :
    inDom (initPriorities tasks) t.name := by
  have main : ∀ (ts : List Task) (m : PMap) (k : String),
      ((m.lookup k).isSome = true ∨ ∃ u ∈ ts, u.name = k) →
      ((ts.foldl (fun m t => mapSet m t.name (100000, t)) m).lookup k).isSome
        = true := by
    intro ts
    induction ts with
    | nil =>
      intro m k h
      rcases h with h | ⟨u, hu, _⟩
      · exact h
      · cases hu
    | cons x rest ihp =>
      intro m k h
      rw [List.foldl_cons]
      apply ihp
      by_cases hk : (k == x.name) = true
      · left
        rw [lookup_mapSet, if_pos hk]
        rfl
      · rcases h with h | ⟨u, hu, hname⟩
        · left
          rw [lookup_mapSet, if_neg hk]
          exact h
        · rcases List.mem_cons.mp hu with h1 | h1
          · exfalso
            apply hk
            rw [h1] at hname
            rw [hname]
            exact beq_self_eq_true _
          · right
            exact ⟨u, h1, hname⟩
  exact main tasks [] t.name (Or.inr ⟨t, ht, rfl⟩)

theorem init_lookup_of_mem (tasks : List Task)
    (hnodup : (tasks.map Task.name).Nodup) (t : Task) (ht : t ∈ tasks) :
    (initPriorities tasks).lookup t.name = some (100000, t) := by
  obtain ⟨v, hv⟩ :=
    Option.isSome_iff_exists.mp (inDom_init_of_mem tasks t ht)
  obtain ⟨h1, h2, h3⟩ := initPriorities_prop tasks t.name v hv
  have h4 : v.2 = t := List.inj_on_of_nodup_map hnodup h2 ht h3
  rw [hv]
  rw [show v = (100000, t) from Prod.ext h1 h4]

theorem prioAt_init (tasks : List Task) (k : String) :
    prioAt (initPriorities tasks) k = 100000 := by
  unfold prioAt
  cases h : (initPriorities tasks).lookup k with
  | none => rfl
  | some v => exact (initPriorities_prop tasks k v h).1

/-! ### From dependency reachability to priority order -/

/-- Task `a` (by name) lists `b` among its direct dependencies. -/
def afterEdge (tasks : List Task) (a b : String) : Prop :=
  ∃ t ∈ tasks, t.name = a ∧ b ∈ t.after.getD []

theorem afterEdge_to_edgeAt (tasks : List Task) (pm : PMap)
    (hnodup : (tasks.map Task.name).Nodup)
    (hte : ∀ k, taskAt pm k = taskAt (initPriorities tasks) k)
    (a b : String) (h : afterEdge tasks a b) : edgeAt pm a b := by
  obtain ⟨t, ht, hname, hb⟩ := h
  subst hname
  have hl := init_lookup_of_mem tasks hnodup t ht
  have h2 := hte t.name
  unfold taskAt at h2
  rw [hl] at h2
  cases hp : pm.lookup t.name with
  | none =>
    rw [hp] at h2
    cases h2
  | some v =>
    rw [hp] at h2
    simp only [Option.map_some', Option.some.injEq] at h2
    exact ⟨v, hp, h2 ▸ hb⟩

theorem reach_prio_lt (pm : PMap) (hok : ∀ x, okAt pm x) (a b : String)
    (h : Relation.TransGen (edgeAt pm) a b) :
    prioAt pm a < 100000 → inDom pm b → prioAt pm b < prioAt pm a := by
  induction h with
  | single hab =>
    intro ha hb
    rcases hok _ with h1 | h1
    · rw [h1] at ha
      exact absurd ha (lt_irrefl _)
    · have := h1 _ hab hb
      omega
  | tail hmid hbc ih =>
    rename_i bmid cc
    intro ha hc
    obtain ⟨v, hv, hvm⟩ := hbc
    have hbdom : inDom pm bmid := by
      unfold inDom
      rw [hv]
      rfl
    have h1 := ih ha hbdom
    rcases hok bmid with h2 | h2
    · omega
    · have := h2 cc ⟨v, hv, hvm⟩ hc
      omega

/-- In the stable ascending sort, a strictly smaller key comes strictly
earlier, wherever the two tasks appear. -/
theorem insertionSort_strict_pos (pm : PMap) (tasks : List Task) (d t : Task)
    (hlt : prioAt pm d.name < prioAt pm t.name) (ii jj : Nat)
    (hii : (tasks.insertionSort
      (fun a b => prioAt pm a.name ≤ prioAt pm b.name))[ii]? = some t)
    (hjj : (tasks.insertionSort
      (fun a b => prioAt pm a.name ≤ prioAt pm b.name))[jj]? = some d) :
    jj < ii := by
  haveI h1 : IsTotal Task (fun a b => prioAt pm a.name ≤ prioAt pm b.name) :=
    ⟨fun a b => le_total _ _⟩
  haveI h2 : IsTrans Task (fun a b => prioAt pm a.name ≤ prioAt pm b.name) :=
    ⟨fun _ _ _ hab hbc => le_trans hab hbc⟩
  have hsort := List.sorted_insertionSort
    (fun a b => prioAt pm a.name ≤ prioAt pm b.name) tasks
  rw [List.getElem?_eq_some_iff] at hii hjj
  obtain ⟨hiilen, hiie⟩ := hii
  obtain ⟨hjjlen, hjje⟩ := hjj
  by_contra hcon
  push_neg at hcon
  rcases lt_or_eq_of_le hcon with hlt2 | heq2
  · have hp := (List.pairwise_iff_getElem.mp hsort) ii jj hiilen hjjlen hlt2
    rw [hiie, hjje] at hp
    omega
  · subst heq2
    have htd : t = d := by rw [← hiie, hjje]
    rw [htd] at hlt
    exact absurd hlt (lt_irrefl _)

/-- **C6**: for a task list with pairwise-distinct names, on a successful
run of `orderByRoute` whose routing list stays below the 1000-entry
sentinel bound, every task `d` reachable through `after` edges from a
routed task `t` is placed strictly before `t` in the output, even when `d`
itself appears nowhere in the routing list. -/
theorem orderByRoute_deps_first (tasks : List Task) (routing : List String)
    (im : Bool) (fuel : Nat) (out : List Task)
    (hnodup : (tasks.map Task.name).Nodup)
    (hroute : routing.length ≤ 1000)
    (hrun : orderByRoute fuel tasks routing im = .done out)
    (i : Nat) (t d : Task) (ht : t ∈ tasks) (hd : d ∈ tasks)
    (hri : routing[i]? = some t.name)
    (hreach : Relation.TransGen (afterEdge tasks) t.name d.name)
    (ii jj : Nat) (hii : out[ii]? = some t) (hjj : out[jj]? = some d) :
    jj < ii := by
  unfold orderByRoute at hrun
  cases hap : applyRouting im fuel (initPriorities tasks) routing 0 with
  | done pmF =>
    rw [hap] at hrun
    injection hrun with hout
    subst hout
    obtain ⟨inv, bounds⟩ :=
      applyRouting_bundle im fuel routing (initPriorities tasks) 0 pmF hap
    have hidom : inDom (initPriorities tasks) t.name :=
      inDom_init_of_mem tasks t ht
    have hbt : prioAt pmF t.name ≤ 100 * ((0 : Nat) + (i : Int)) :=
      bounds i t.name hri hidom
    have hleni : i < routing.length := by
      obtain ⟨hh, _⟩ := List.getElem?_eq_some_iff.mp hri
      exact hh
    have ht1000 : prioAt pmF t.name < 100000 := by
      have : (i : Int) ≤ 999 := by
        have : i ≤ 999 := by omega
        exact_mod_cast this
      omega
    have hok : ∀ x, okAt pmF x := fun x =>
      okAt_preserved _ _ inv x (Or.inl (prioAt_init tasks x))
    have hreach2 : Relation.TransGen (edgeAt pmF) t.name d.name :=
      Relation.TransGen.mono
        (fun a b hab => afterEdge_to_edgeAt tasks pmF hnodup inv.taskEq a b hab)
        hreach
    have hddom : inDom pmF d.name :=
      (inDom_iff_of_taskEq _ _ inv.taskEq _).mpr (inDom_init_of_mem tasks d hd)
    have hlt := reach_prio_lt pmF hok t.name d.name hreach2 ht1000 hddom
    exact insertionSort_strict_pos pmF tasks d t hlt ii jj hii hjj
  | thrown e =>
    rw [hap] at hrun
    cases hrun
  | fuelOut =>
    rw [hap] at hrun
    cases hrun

def demoRouteA : Task := ⟨"Q1/a", none, none, false, none, .callback⟩

def demoRouteB : Task := ⟨"Q1/b", some ["Q1/a"], none, false, none, .callback⟩

def demoRouteC : Task := ⟨"Q2/c", some ["Q1/a"], none, false, none, .callback⟩

def demoRouteTasks : List Task := [demoRouteA, demoRouteB, demoRouteC]

theorem orderByRoute_deps_first_witness :
    orderByRoute 5 demoRouteTasks ["Q2/c"] false =
      .done [demoRouteA, demoRouteC, demoRouteB] ∧ (0 : Nat) < 1 :=
  ⟨by decide, orderByRoute_deps_first demoRouteTasks ["Q2/c"] false 5
    [demoRouteA, demoRouteC, demoRouteB] (by decide) (by decide) (by decide)
    0 demoRouteC demoRouteA (by decide) (by decide) (by decide)
    (Relation.TransGen.single ⟨demoRouteC, by decide, rfl, by decide⟩)
    1 0 (by decide) (by decide)⟩

/-! ### Termination of the priority propagation on acyclic graphs -/

/-- The stored tasks all come from the task list, under their own name. -/
def taskInv (tasks : List Task) (pm : PMap) : Prop :=
  ∀ k v, pm.lookup k = some v → v.2 ∈ tasks ∧ v.2.name = k

theorem taskInv_init (tasks : List Task) :
    taskInv tasks (initPriorities tasks) := fun k v h =>
  ⟨(initPriorities_prop tasks k v h).2.1, (initPriorities_prop tasks k v h).2.2⟩

theorem taskInv_of_taskEq (tasks : List Task) (pm pm2 : PMap)
    (hte : ∀ k, taskAt pm2 k = taskAt pm k) (h : taskInv tasks pm) :
    taskInv tasks pm2 := by
  intro k v hv
  obtain ⟨w, hw, hw2⟩ := taskEq_lookup pm pm2 hte k v hv
  obtain ⟨h1, h2⟩ := h k w hw
  exact ⟨hw2 ▸ h1, hw2 ▸ h2⟩

theorem taskAt_mapSet_self (pm : PMap) (name : String) (p : Int)
    (old : Int × Task) (hl : pm.lookup name = some old) (k : String) :
    taskAt (mapSet pm name (p, old.2)) k = taskAt pm k := by
  rw [taskAt_mapSet]
  by_cases hk : k = name
  · rw [if_pos hk, hk]
    unfold taskAt
    rw [hl]
    rfl
  · rw [if_neg hk]

/-- Names reachable from the routing list by following `after` edges. -/
inductive ReachableFrom (tasks : List Task) (routing : List String) :
    String → Prop where
  | base (r : String) (h : r ∈ routing) : ReachableFrom tasks routing r
  | step (a b : String) (ha : ReachableFrom tasks routing a)
      (hab : afterEdge tasks a b) : ReachableFrom tasks routing b

/-- With a height function that strictly decreases along reachable `after`
edges, a budget exceeding the height by 2 is never exhausted. -/
theorem spr_no_fuelOut (im : Bool) (tasks : List Task) (routing : List String)
    (h : String → Nat)
    (hdec : ∀ a b, ReachableFrom tasks routing a → afterEdge tasks a b →
      h b < h a) :
    ∀ fuel : Nat,
      (∀ pm name p, taskInv tasks pm → ReachableFrom tasks routing name →
        1 ≤ fuel → (inDom pm name → h name + 2 ≤ fuel) →
        setPriorityRecursive im fuel pm name p ≠ .fuelOut) ∧
      (∀ pm deps q, taskInv tasks pm →
        (∀ d ∈ deps, ReachableFrom tasks routing d ∧
          (inDom pm d → h d + 2 ≤ fuel)) →
        (deps ≠ [] → 1 ≤ fuel) →
        setPriorityDeps im fuel pm deps q ≠ .fuelOut) := by
  intro fuel
  induction fuel with
  | zero =>
    constructor
    · intro pm name p _ _ hf _
      exact absurd hf (by omega)
    · intro pm deps q _ _ hne
      cases deps with
      | nil =>
        rw [spd_nil]
        intro hh
        cases hh
      | cons d rest => exact absurd (hne (by simp)) (by omega)
  | succ f ih =>
    have recStep : ∀ pm name p, taskInv tasks pm →
        ReachableFrom tasks routing name →
        (inDom pm name → h name + 2 ≤ f + 1) →
        setPriorityRecursive im (f + 1) pm name p ≠ .fuelOut := by
      intro pm name p hinv hre hf
      rw [spr_succ]
      cases hl : pm.lookup name with
      | none =>
        dsimp only
        cases im <;> simp
      | some old =>
        dsimp only
        by_cases hle : old.1 ≤ p
        · rw [if_pos hle]
          simp
        · rw [if_neg hle]
          have hdom : inDom pm name := by
            unfold inDom
            rw [hl]
            rfl
          have hf2 := hf hdom
          obtain ⟨hmem, hname⟩ := hinv name old hl
          refine ih.2 (mapSet pm name (p, old.2)) (old.2.after.getD [])
            (p - 1)
            (taskInv_of_taskEq tasks pm _ (taskAt_mapSet_self pm name p old hl) hinv)
            ?_ (fun _ => by omega)
          intro d hd
          have hedge : afterEdge tasks name d := ⟨old.2, hmem, hname, hd⟩
          have hlt := hdec name d hre hedge
          exact ⟨.step name d hre hedge, fun _ => by omega⟩
    refine ⟨fun pm name p hinv hre _ hf => recStep pm name p hinv hre hf, ?_⟩
    intro pm deps
    induction deps generalizing pm with
    | nil =>
      intro q _ _ _
      rw [spd_nil]
      intro hh
      cases hh
    | cons d rest ihd =>
      intro q hinv hconds _
      rw [spd_cons]
      cases hr : setPriorityRecursive im (f + 1) pm d q with
      | done pmA =>
        obtain ⟨invA, _⟩ := (spr_bundle im (f + 1)).1 pm d q pmA hr
        exact ihd pmA q
          (taskInv_of_taskEq tasks pm pmA invA.taskEq hinv)
          (fun x hx =>
            ⟨(hconds x (by simp [hx])).1,
             fun hdx => (hconds x (by simp [hx])).2
               ((inDom_iff_of_taskEq pm pmA invA.taskEq x).mp hdx)⟩)
          (fun _ => by omega)
      | thrown e =>
        intro hh
        cases hh
      | fuelOut =>
        exact absurd hr (recStep pm d q hinv (hconds d (by simp)).1
          (hconds d (by simp)).2)

theorem applyRouting_no_fuelOut (im : Bool) (tasks : List Task)
    (routing : List String) (h : String → Nat) (fuel : Nat)
    (hdec : ∀ a b, ReachableFrom tasks routing a → afterEdge tasks a b →
      h b < h a)
    (hfuel : ∀ t ∈ tasks, h t.name + 2 ≤ fuel) (hfuel1 : 1 ≤ fuel) :
    ∀ (rs : List String) (pm : PMap) (i : Nat), taskInv tasks pm →
      (∀ r ∈ rs, r ∈ routing) →
      applyRouting im fuel pm rs i ≠ .fuelOut := by
  intro rs
  induction rs with
  | nil =>
    intro pm i _ _
    rw [ar_nil]
    intro hh
    cases hh
  | cons r rest ih =>
    intro pm i hinv hsub
    rw [ar_cons]
    cases hr : setPriorityRecursive im fuel pm r (100 * (i : Int)) with
    | done pmA =>
      obtain ⟨invA, _⟩ := (spr_bundle im fuel).1 pm r (100 * (i : Int)) pmA hr
      exact ih pmA (i + 1)
        (taskInv_of_taskEq tasks pm pmA invA.taskEq hinv)
        (fun x hx => hsub x (by simp [hx]))
    | thrown e =>
      intro hh
      cases hh
    | fuelOut =>
      refine absurd hr ((spr_no_fuelOut im tasks routing h hdec fuel).1 pm r _
        hinv (.base r (hsub r (by simp))) hfuel1 ?_)
      intro hdom
      obtain ⟨v, hv⟩ := Option.isSome_iff_exists.mp hdom
      obtain ⟨h1, h2⟩ := hinv r v hv
      have h3 := hfuel v.2 h1
      rw [h2] at h3
      exact h3

/-- **C9**: `orderByRoute` terminates whenever the `after` graph restricted
to names reachable from the routing entries is acyclic — acyclicity
expressed by a height function that strictly decreases along reachable
edges: any recursion budget exceeding every task's height by 2 is never
exhausted; the run ends in a result or a thrown error. -/
theorem orderByRoute_terminates (tasks : List Task) (routing : List String)
    (im : Bool) (h : String → Nat) (fuel : Nat)
    (hdec : ∀ a b, ReachableFrom tasks routing a → afterEdge tasks a b →
      h b < h a)
    (hfuel : ∀ t ∈ tasks, h t.name + 2 ≤ fuel) (hfuel1 : 1 ≤ fuel) :
    orderByRoute fuel tasks routing im ≠ .fuelOut := by
  unfold orderByRoute
  cases hap : applyRouting im fuel (initPriorities tasks) routing 0 with
  | done pm =>
    intro hh
    cases hh
  | thrown e =>
    intro hh
    cases hh
  | fuelOut =>
    exact absurd hap (applyRouting_no_fuelOut im tasks routing h fuel hdec
      hfuel hfuel1 routing (initPriorities tasks) 0 (taskInv_init tasks)
      (fun r hr => hr))

/-- Heights for the demonstration tasks: the leaf `Q1/a` at 0, the rest
at 1. -/
def demoHeights : String → Nat := fun s => if s = "Q1/a" then 0 else 1

theorem orderByRoute_terminates_witness :
    (∀ t ∈ demoRouteTasks, demoHeights t.name + 2 ≤ 5) ∧
    orderByRoute 5 demoRouteTasks ["Q2/c"] false ≠ .fuelOut :=
  ⟨by decide, orderByRoute_terminates demoRouteTasks ["Q2/c"] false
    demoHeights 5
    (by
      intro a b hr hab
      obtain ⟨t, ht, hname, hb⟩ := hab
      subst hname
      have ht3 : t = demoRouteA ∨ t = demoRouteB ∨ t = demoRouteC := by
        simpa [demoRouteTasks] using ht
      rcases ht3 with h1 | h1 | h1 <;> subst h1
      · simp [demoRouteA] at hb
      · have hb2 : b = "Q1/a" := by simpa [demoRouteB] using hb
        subst hb2
        decide
      · have hb2 : b = "Q1/a" := by simpa [demoRouteC] using hb
        subst hb2
        decide)
    (by decide) (by decide)⟩

end Grimoire
